import Mathlib

/-!
Verification of the embeddedgo/fs repository (ramfs, termfs, semihostfs).

Shallow embedding conventions:
* Go bytes are modelled as `Nat` (values 0..255; no operation here depends on
  an upper bound, so no masking is required).
* Go `int`/`int64` counters that never overflow in any realisable execution
  (file-system sizes bounded by `maxSize`, item counts) are modelled as `Int`.
* Go errors are modelled by an explicit error enumeration; the `PathError`
  wrapping layer preserves the underlying errno, so only the errno is kept.
* Go flag words are `Nat` bit masks with the standard Go `syscall` values
  (`O_RDONLY = 0`, `O_WRONLY = 1`, `O_RDWR = 2`, `O_CREAT = 0x40`,
  `O_EXCL = 0x80`, `O_TRUNC = 0x200`, `O_APPEND = 0x400`).  The repository's
  own test (`ramfs_test.go`: opening with `O_CREAT` alone yields a handle
  whose `rdwr` equals `O_RDONLY`) pins `O_RDONLY = 0`.
* The underlying stream writer used by termfs is modelled as an
  always-accepting writer (every `Write(q)` returns `(len(q), nil)`), which
  is the hypothesis of the claims about the output path.
-/

/-- Error kinds surfaced by the file systems (syscall errnos plus the
sentinel errors used by the sources).  `oobPanic` models a Go runtime
index-out-of-range panic in the shallow embedding. -/
inductive Errno where
  | EINVAL | ENOENT | ENOTSUP | ENOTDIR | ENOSPC | EEXIST | EISDIR
  | EBADF | ECANCELED | lineTooLong | ioEOF | oobPanic
  deriving DecidableEq, Repr

/-! ## Go syscall flag constants -/

def O_RDONLY : Nat := 0
def O_WRONLY : Nat := 1
def O_RDWR : Nat := 2
def O_CREAT : Nat := 0x40
def O_EXCL : Nat := 0x80
def O_TRUNC : Nat := 0x200
def O_APPEND : Nat := 0x400

/-! ## termfs: flag word (termfs.go, third revision: the one with the
`flags` field, `InCRLF = 1<<0`, `OutLFCRLF = 1<<3`, `eof = 1<<6`,
`echo = 1<<7`). -/

def InCRLF : Nat := 1
def OutLFCRLF : Nat := 8
def mapFlags : Nat := InCRLF ||| OutLFCRLF
def eofBit : Nat := 64
def echoBit : Nat := 128

/-- `FS.Echo` (termfs.go lines 459-464): `flags & echo != 0`. -/
def fsEcho (flags : Nat) : Bool := flags &&& echoBit != 0

/-- `FS.SetEcho` (termfs.go lines 469-478), translated exactly: the guarded
set/clear of the echo bit is followed by an unconditional `flags |= echo`. -/
def fsSetEcho (flags : Nat) (b : Bool) : Nat :=
  let fl := if b then flags ||| echoBit else flags &&& (255 ^^^ echoBit)
  fl ||| echoBit

/-! ## termfs: write path (termfs.go, function `write`, lines 594-638).

`segScan p` models one pass of the inner scan loop started at the suffix
`p`: the loop inspects `p[m]` first and only afterwards checks `m == len(p)`,
so inspecting an empty suffix is an out-of-range access, modelled as `none`.
The returned value is the number of bytes before the first `'\n'` (or the
whole suffix length when it holds no `'\n'`). -/
def segScan : List Nat → Option Nat
  | [] => none
  | c :: tl =>
    if c = 10 then some 0
    else
      match tl with
      | [] => some 1
      | _ :: _ => (segScan tl).map (· + 1)

theorem segScan_single (c : Nat) :
    segScan [c] = if c = 10 then some 0 else some 1 := rfl

theorem segScan_cons₂ (c d : Nat) (tl : List Nat) :
    segScan (c :: d :: tl) =
      if c = 10 then some 0 else (segScan (d :: tl)).map (· + 1) := rfl

/-- The outer loop of `write` when `OutLFCRLF` is set, with an
always-accepting underlying writer, written with explicit recursion fuel
(one unit per loop iteration; each iteration strictly shortens the
remaining suffix, so `len(p)` units always suffice).  Returns `(n, out)`:
the progress count returned to the caller and the bytes passed to the
underlying writer.  `none` models an out-of-range access inside the scan
loop (the loop is entered with `n = len(p)`) or fuel exhaustion. -/
def wloopLFAux : Nat → List Nat → Option (Nat × List Nat)
  | _, [] => none
  | 0, _ :: _ => none
  | fuel + 1, c :: tl =>
    match segScan (c :: tl) with
    | none => none
    | some k =>
      if k = (c :: tl).length then
        some (k, (c :: tl).take k)
      else
        match (c :: tl).drop (k + 1) with
        | [] => some (k + 1, (c :: tl).take k ++ [13, 10])
        | c1 :: t1 =>
          match wloopLFAux fuel (c1 :: t1) with
          | none => none
          | some r => some (k + 1 + r.1, (c :: tl).take k ++ [13, 10] ++ r.2)

/-- The LF -> CRLF output loop at its natural fuel bound. -/
def wloopLF (p : List Nat) : Option (Nat × List Nat) := wloopLFAux p.length p

/-- `file write` (termfs.go lines 594-638) over an always-accepting
underlying writer: the early returns for an empty buffer and a closed
handle, the pass-through fast path when `OutLFCRLF` is clear, and the
LF -> CRLF loop otherwise. -/
def termfsWrite (flags : Nat) (closedHandle : Bool) (p : List Nat) :
    Except Errno (Nat × List Nat) :=
  if p = [] then .ok (0, [])
  else if closedHandle then .error .EBADF
  else if flags &&& OutLFCRLF = 0 then .ok (p.length, p)
  else
    match wloopLF p with
    | none => .error .oobPanic
    | some r => .ok r

/-- The LF -> CRLF substitution described by the specification. -/
def lfToCrlf (p : List Nat) : List Nat :=
  p.flatMap fun c => if c = 10 then [13, 10] else [c]

/-! ### Lemmas about the scan loop -/

theorem segScan_isSome (c : Nat) (tl : List Nat) : (segScan (c :: tl)).isSome := by
  induction tl generalizing c with
  | nil => rw [segScan_single]; split <;> rfl
  | cons d tl ih =>
    rw [segScan_cons₂]
    split
    · rfl
    · simpa using ih d

theorem segScan_le_length :
    ∀ (tl : List Nat) (c k : Nat), segScan (c :: tl) = some k → k ≤ tl.length + 1 := by
  intro tl
  induction tl with
  | nil =>
    intro c k h
    rw [segScan_single] at h
    split at h <;> (injection h with h; omega)
  | cons d t ih =>
    intro c k h
    rw [segScan_cons₂] at h
    split at h
    · injection h with h; omega
    · obtain ⟨k0, h0, hk⟩ := Option.map_eq_some'.mp h
      have := ih d k0 h0
      simp only [List.length_cons]
      omega

theorem segScan_take :
    ∀ (tl : List Nat) (c k : Nat), segScan (c :: tl) = some k →
      ∀ x ∈ (c :: tl).take k, x ≠ 10 := by
  intro tl
  induction tl with
  | nil =>
    intro c k h x hx
    rw [segScan_single] at h
    split at h
    · injection h with h; subst h; simp at hx
    · injection h with h; subst h
      simp at hx
      subst hx; assumption
  | cons d t ih =>
    intro c k h x hx
    rw [segScan_cons₂] at h
    split at h
    · injection h with h; subst h; simp at hx
    · obtain ⟨k0, h0, hk⟩ := Option.map_eq_some'.mp h
      subst hk
      rw [List.take_succ_cons] at hx
      rcases List.mem_cons.mp hx with h1 | h1
      · subst h1; assumption
      · exact ih d k0 h0 x h1

theorem segScan_drop :
    ∀ (tl : List Nat) (c k : Nat), segScan (c :: tl) = some k →
      k < tl.length + 1 → (c :: tl).drop k = 10 :: (c :: tl).drop (k + 1) := by
  intro tl
  induction tl with
  | nil =>
    intro c k h hlt
    rw [segScan_single] at h
    split at h
    · injection h with h; subst h; simp; assumption
    · injection h with h; subst h; simp at hlt
  | cons d t ih =>
    intro c k h hlt
    rw [segScan_cons₂] at h
    split at h
    · injection h with h; subst h
      simp only [List.drop_zero, List.drop_succ_cons, List.drop_zero]
      exact congrArg (· :: d :: t) (by assumption)
    · obtain ⟨k0, h0, hk⟩ := Option.map_eq_some'.mp h
      subst hk
      have hlt0 : k0 < t.length + 1 := by
        simp only [List.length_cons] at hlt; omega
      have := ih d k0 h0 hlt0
      simpa using this

theorem lfToCrlf_cons (c : Nat) (tl : List Nat) :
    lfToCrlf (c :: tl) = (if c = 10 then [13, 10] else [c]) ++ lfToCrlf tl := by
  simp [lfToCrlf]

theorem lfToCrlf_of_no_lf (p : List Nat) (h : ∀ c ∈ p, c ≠ 10) :
    lfToCrlf p = p := by
  induction p with
  | nil => rfl
  | cons c tl ih =>
    have hc : c ≠ 10 := h c (by simp)
    have htl : ∀ x ∈ tl, x ≠ 10 := fun x hx => h x (by simp [hx])
    rw [lfToCrlf_cons, if_neg hc, ih htl]
    rfl

theorem lfToCrlf_append (p q : List Nat) :
    lfToCrlf (p ++ q) = lfToCrlf p ++ lfToCrlf q := by
  simp [lfToCrlf]

theorem wloopLFAux_formula :
    ∀ (fuel : Nat) (q : List Nat), q ≠ [] → q.length ≤ fuel →
      wloopLFAux fuel q = some (q.length, lfToCrlf q) := by
  intro fuel
  induction fuel with
  | zero =>
    intro q hqne hq
    cases q with
    | nil => exact absurd rfl hqne
    | cons c tl => simp at hq
  | succ N ih =>
    intro q hqne hq
    obtain ⟨c, tl, rfl⟩ := List.exists_cons_of_ne_nil hqne
    obtain ⟨k, hk⟩ := Option.isSome_iff_exists.mp (segScan_isSome c tl)
    rw [wloopLFAux, hk]
    dsimp only
    by_cases hkl : k = (c :: tl).length
    · rw [if_pos hkl]
      have hall : ∀ x ∈ c :: tl, x ≠ 10 := by
        have h1 := segScan_take tl c k hk
        rw [hkl, List.take_length] at h1
        exact h1
      rw [hkl, List.take_length, lfToCrlf_of_no_lf _ hall]
    · rw [if_neg hkl]
      have hklt : k < tl.length + 1 := by
        have := segScan_le_length tl c k hk
        simp only [List.length_cons] at hkl
        omega
      have hdrop : (c :: tl).drop k = 10 :: (c :: tl).drop (k + 1) :=
        segScan_drop tl c k hk hklt
      have hsplit : c :: tl = (c :: tl).take k ++ 10 :: (c :: tl).drop (k + 1) := by
        conv_lhs => rw [← List.take_append_drop k (c :: tl)]
        rw [hdrop]
      have htake : ∀ x ∈ (c :: tl).take k, x ≠ 10 := segScan_take tl c k hk
      have hlen_take : ((c :: tl).take k).length = k := by
        rw [List.length_take]
        simp only [List.length_cons]
        omega
      have hlen_drop : ((c :: tl).drop (k + 1)).length = tl.length + 1 - (k + 1) := by
        rw [List.length_drop, List.length_cons]
      cases hr : (c :: tl).drop (k + 1) with
      | nil =>
        dsimp only
        have hlen : (c :: tl).length = k + 1 := by
          rw [hr] at hlen_drop
          simp only [List.length_nil, List.length_cons] at hlen_drop ⊢
          omega
        have hout : lfToCrlf (c :: tl) = (c :: tl).take k ++ [13, 10] := by
          conv_lhs => rw [hsplit, hr]
          rw [lfToCrlf_append, lfToCrlf_cons, if_pos rfl]
          rw [lfToCrlf_of_no_lf _ htake]
          rfl
        rw [hlen, hout]
      | cons c1 t1 =>
        dsimp only
        have hlen1 : (c1 :: t1).length ≤ N := by
          rw [hr] at hlen_drop
          simp only [List.length_cons] at hlen_drop hq ⊢
          omega
        rw [ih (c1 :: t1) (by simp) hlen1]
        have hout : lfToCrlf (c :: tl) =
            (c :: tl).take k ++ [13, 10] ++ lfToCrlf (c1 :: t1) := by
          conv_lhs => rw [hsplit, hr]
          rw [lfToCrlf_append, lfToCrlf_cons, if_pos rfl]
          rw [lfToCrlf_of_no_lf _ htake]
          simp
        have hn : k + 1 + (c1 :: t1).length = (c :: tl).length := by
          rw [hr] at hlen_drop
          simp only [List.length_cons] at hlen_drop ⊢
          omega
        rw [hout]
        dsimp only
        rw [hn]

/-- Core correctness of the LF -> CRLF output loop: on a non-empty buffer it
reports full progress and emits exactly the substituted byte stream. -/
theorem wloopLF_formula (p : List Nat) (hne : p ≠ []) :
    wloopLF p = some (p.length, lfToCrlf p) :=
  wloopLFAux_formula p.length p hne le_rfl

/-- C3: with `OutLFCRLF` set, on an open handle over an always-accepting
writer, `Write(p)` reports `n = len(p)` and the underlying writer receives
`p` with every `'\n'` replaced by `'\r','\n'`. -/
theorem termfs_write_lfcrlf (flags : Nat) (h : flags &&& OutLFCRLF ≠ 0)
    (p : List Nat) : termfsWrite flags false p = .ok (p.length, lfToCrlf p) := by
  by_cases hp : p = []
  · subst hp; rfl
  · rw [termfsWrite, if_neg hp]
    simp only [Bool.false_eq_true, if_false, if_neg h]
    rw [wloopLF_formula p hp]

/-- Witness for C3 at a concrete buffer containing a `'\n'`. -/
theorem termfs_write_lfcrlf_witness :
    termfsWrite 8 false [120, 10, 121] = .ok ([120, 10, 121].length, lfToCrlf [120, 10, 121]) :=
  termfs_write_lfcrlf 8 (by decide) [120, 10, 121]

/-- C10: the scan loop of `write` with LF replacement active never reads an
index `m ≥ len(p)` for a non-empty `p` (in particular when `p` holds no
`'\n'`): the run never reaches the out-of-range case of the embedding, and
the loop terminates with a defined result. -/
theorem termfs_write_scan_in_bounds (p : List Nat) (h : p ≠ []) :
    (wloopLF p).isSome := by
  rw [wloopLF_formula p h]; rfl

/-- Witness for C10 on a buffer with no `'\n'` at all. -/
theorem termfs_write_scan_in_bounds_witness :
    (wloopLF [65, 66, 67]).isSome :=
  termfs_write_scan_in_bounds [65, 66, 67] (by decide)

/-- C7 (code bug): `SetEcho(false)` leaves the echo flag set, because the
translation of `SetEcho` ends with an unconditional `flags |= echo`
(termfs.go line 476); `Echo()` then reports `true` instead of `false`. -/
theorem termfs_setEcho_false_reports_true :
    fsEcho (fsSetEcho 0 false) = true ∧ fsEcho (fsSetEcho 0 true) = true := by
  constructor <;> rfl

/-! ## semihostfs: open flag translation (fs_thumb.go, `openWithFinalizer`,
lines 16-72). -/

/-- The `mode` computation of `openWithFinalizer`: a Go `switch` whose first
case is `flag & O_RDONLY != 0`.  Since `O_RDONLY = 0` that case never fires;
combinations matching no case leave `mode = 0`. -/
def semihostOpenMode (flag : Nat) : Nat :=
  if flag &&& O_RDONLY ≠ 0 then 1
  else if flag &&& O_RDWR ≠ 0 then
    let sub := flag &&& (O_CREAT ||| O_TRUNC ||| O_APPEND)
    if sub = 0 then 3
    else if sub = O_CREAT ||| O_TRUNC then 7
    else if sub = O_CREAT ||| O_APPEND then 11
    else 0
  else if flag &&& O_WRONLY ≠ 0 then
    let sub := flag &&& (O_CREAT ||| O_TRUNC ||| O_APPEND)
    if sub = O_CREAT ||| O_TRUNC then 5
    else if sub = O_CREAT ||| O_APPEND then 9
    else 0
  else 0

/-- The sentinel-name handling of `openWithFinalizer`: `":stdin"`,
`":stdout"`, `":stderr"` override the mode and use host path `":tt"`;
any other name keeps the computed mode and is joined under the root
(`filepath.Join` modelled as separator concatenation, exact for the clean
paths used here). -/
def semihostOpen (root name : String) (flag : Nat) : Nat × String :=
  let mode := semihostOpenMode flag
  if name = ":stderr" then (8, ":tt")
  else if name = ":stdout" then (4, ":tt")
  else if name = ":stdin" then (0, ":tt")
  else (mode, root ++ "/" ++ name)

/-- C8 (code bug): evaluating the open translation shows `O_RDONLY` yields
host mode 0, not the documented 1 (the guard `flag & O_RDONLY != 0` is dead
because `O_RDONLY = 0`), while every other row of the table and the sentinel
names behave as documented. -/
theorem semihostfs_openMode_table :
    semihostOpenMode O_RDONLY = 0 ∧
    semihostOpenMode O_RDWR = 3 ∧
    semihostOpenMode (O_RDWR ||| O_CREAT ||| O_TRUNC) = 7 ∧
    semihostOpenMode (O_RDWR ||| O_CREAT ||| O_APPEND) = 11 ∧
    semihostOpenMode (O_WRONLY ||| O_CREAT ||| O_TRUNC) = 5 ∧
    semihostOpenMode (O_WRONLY ||| O_CREAT ||| O_APPEND) = 9 ∧
    semihostOpen "root" ":stdin" O_RDONLY = (0, ":tt") ∧
    semihostOpen "root" ":stdout" O_WRONLY = (4, ":tt") ∧
    semihostOpen "root" ":stderr" O_WRONLY = (8, ":tt") := by
  refine ⟨by decide, by decide, by decide, by decide, by decide, by decide, rfl, rfl, rfl⟩

/-! ## ramfs (ramfs.go third revision: the `fileFS` / `goto error` variant,
the one the claims cite by line number; file.go; dir.go).

The tree is embedded as an arena: Go node pointers become arena indices,
`dir.list` (head of the singly-linked child list) becomes a `List Nat` of
child indices in list order, and node mutation becomes `List.set` on the
arena.  Nodes are never deallocated (Go relies on the garbage collector),
so unlinked nodes stay in the arena exactly as unlinked Go nodes stay on
the heap while handles reference them.  Modification times are not
modelled (no claim mentions them).  A Go slice `data []byte` is modelled
by its backing array `store` (`cap(data) = store.length`) together with
`len`; the slice content is `store.take len`. -/

/-- Path names; Go strings restricted to the character lists used as paths. -/
abbrev PathName := List Char

/-- A ramfs node (ramfs.go lines 534-547): `isFile` models `fileFS != nil`. -/
structure RNode where
  isFile : Bool
  name : PathName
  store : List Nat
  len : Nat
  children : List Nat
  deriving DecidableEq, Repr

abbrev Arena := List RNode

/-- Structure sizes for a 64-bit target (ramfs.go lines 549-562):
`ptrSize = 8`, `strSize = 16`, `sliSize = 24`, `lockSize = 24`,
`nodeSize = ptrSize + strSize + ptrSize + lockSize + ptrSize + sliSize + 8
+ intSize = 104`. -/
def nodeSize : Nat := 8 + 16 + 8 + 24 + 8 + 24 + 8 + 8
def emptyFileSize : Nat := nodeSize
def dirSize : Nat := nodeSize

/-- `size(n)` (ramfs.go lines 565-573): `emptyFileSize + cap(n.data)` for a
file, `dirSize` for a directory. -/
def nodeContrib (nd : RNode) : Int :=
  if nd.isFile then (emptyFileSize : Int) + nd.store.length else (dirSize : Int)

/-- Node contribution read through the arena (0 for a dangling index, which
never occurs in reachable states). -/
def contribAt (a : Arena) (i : Nat) : Int :=
  match a.get? i with
  | none => 0
  | some nd => nodeContrib nd

/-- Go `strings.IndexByte(name, '/')` combined with the `i > 0` split of
`find` (ramfs.go lines 610-613): returns the first segment and the rest;
a missing slash, or a slash at position 0, leaves the name unsplit. -/
def splitFirstSlash (name : PathName) : PathName × PathName :=
  match name.findIdx? (· = '/') with
  | some i => if 0 < i then (name.take i, name.drop (i + 1)) else (name, [])
  | none => (name, [])

/-- Go `strings.LastIndexByte(name, '/')`. -/
def lastSlashIdx (name : PathName) : Option Nat :=
  match name.reverse.findIdx? (· = '/') with
  | some j => some (name.length - 1 - j)
  | none => none

/-- Split a path on every `'/'` (helper for the `io/fs.ValidPath` model). -/
def splitOnSlash : PathName → List PathName
  | [] => [[]]
  | c :: tl =>
    let r := splitOnSlash tl
    if c = '/' then [] :: r
    else
      match r with
      | [] => [[c]]
      | s :: rest => (c :: s) :: rest

/-- Model of the external Go `io/fs.ValidPath`: `"."` is valid, otherwise
every `'/'`-separated element must be non-empty and differ from `"."` and
`".."` (UTF-8 validity is trivial for `List Char`). -/
def validPath (name : PathName) : Bool :=
  if name = ['.'] then true
  else (splitOnSlash name).all fun s => !(s.isEmpty || s = ['.'] || s = ['.', '.'])

/-- `n.name == seg` read through the arena. -/
def nameIs (a : Arena) (seg : PathName) (cid : Nat) : Bool :=
  decide ((a.get? cid).map RNode.name = some seg)

/-- First child of `ids` (a directory's child list) whose node name equals
`seg`: the `for n := root.list; n != nil; n = n.next` scan. -/
def childNamed (a : Arena) (ids : List Nat) (seg : PathName) : Option Nat :=
  ids.find? (nameIs a seg)

/-- `find` (ramfs.go lines 609-633) with explicit recursion fuel (each
recursive call strictly shortens the name, so `len(name)` units suffice;
`goFind` below supplies them). -/
def findAux (a : Arena) : Nat → Nat → PathName → Option Nat
  | 0, _, _ => none
  | fuel + 1, dirId, name =>
    match childNamed a ((a.get? dirId).map RNode.children |>.getD []) (splitFirstSlash name).1 with
    | none => none
    | some c =>
      if (splitFirstSlash name).2 = [] then some c
      else
        match a.get? c with
        | none => none
        | some nd => if nd.isFile then none else findAux a fuel c (splitFirstSlash name).2

/-- `find(root, name)` at its natural fuel bound. -/
def goFind (a : Arena) (dirId : Nat) (name : PathName) : Option Nat :=
  findAux a (name.length + 1) dirId name

/-- `findDir` (ramfs.go lines 637-647): returns the parent directory node
(root index 0 when the name has no slash) and the base name; a missing or
file-typed parent is returned as-is with the directory prefix as base. -/
def goFindDir (a : Arena) (name : PathName) : Option Nat × PathName :=
  match lastSlashIdx name with
  | none => (some 0, name)
  | some i =>
    match goFind a 0 (name.take i) with
    | none => (none, name.take i)
    | some d =>
      match a.get? d with
      | none => (none, name.take i)
      | some nd =>
        if nd.isFile then (some d, name.take i) else (some d, name.drop (i + 1))

/-- An open handle (file.go lines 17-25 / dir.go lines 13-18 merged):
`node = none` models `f.n = nil` after `Close`; `fin` counts invocations of
the `closed` finalizer (observation counter for the claims about it). -/
structure RHandle where
  node : Option Nat
  isDir : Bool
  rdwr : Nat
  pos : Nat
  fin : Nat
  deriving DecidableEq, Repr

/-- The ramfs file-system state: arena (root at index 0), the atomic `size`
and `items` counters, the bound, and the handles created so far. -/
structure RFS where
  arena : Arena
  size : Int
  maxSize : Int
  items : Int
  handles : List RHandle
  deriving DecidableEq, Repr

/-- `New(name, maxSize)` (ramfs.go lines 596-605): root named `"."`. -/
def initRFS (maxSize : Int) : RFS :=
  { arena := [{ isFile := false, name := ['.'], store := [], len := 0, children := [] }]
    size := 0, maxSize := maxSize, items := 0, handles := [] }

/-- `Usage()` (ramfs.go lines 795-798). -/
def rfsUsage (st : RFS) : Int × Int × Int × Int := (st.items, -1, st.size, st.maxSize)

/-- Prepend child `c` to the child list of directory `d`
(`n.next = dir.list; dir.list = n`). -/
def linkChild (a : Arena) (d c : Nat) : Arena :=
  match a.get? d with
  | none => a
  | some nd => a.set d { nd with children := c :: nd.children }

/-- `unlink(dir, name)` (ramfs.go lines 800-827): remove the first child of
`d` whose name is `base`; returns the removed node index (`nil` if absent)
and the updated arena. -/
def unlinkChild (a : Arena) (d : Nat) (base : PathName) : Option Nat × Arena :=
  match a.get? d with
  | none => (none, a)
  | some nd =>
    match nd.children.findIdx? (nameIs a base) with
    | none => (none, a)
    | some j =>
      (nd.children.get? j, a.set d { nd with children := nd.children.eraseIdx j })

/-- The node-locked section of `file.Write` (file.go lines 66-100): compute
`pos1`, grow the backing array when `pos1 > cap` (tiered 16/32/64 rounding:
`(pos1+roundUp) &^ roundUp` rounds up to a multiple of `roundUp+1`, a power
of two), charge the capacity delta against the quota with rollback on
overflow, extend the slice length when `pos1 > len`, then copy `p` at
`pos`.  `make([]byte, pos1, newCap)` zero-fills; `copy(data1[:pos], data)`
copies `min(pos, len)` bytes of the old slice content.  Returns the new
backing store, slice length, handle position and fs size. -/
def fileWriteData (store : List Nat) (len pos : Nat) (p : List Nat)
    (size maxSize : Int) : Except Errno (List Nat × Nat × Nat × Int) :=
  let pos1 := pos + p.length
  if pos1 > store.length then
    let roundUp : Nat := if store.length < 64 then 15 else if store.length < 256 then 31 else 63
    let newCap := ((pos1 + roundUp) / (roundUp + 1)) * (roundUp + 1)
    let add : Int := (newCap : Int) - (store.length : Int)
    if size + add > maxSize then .error .ENOSPC
    else
      let copied := min pos len
      .ok (store.take copied ++ List.replicate (pos - copied) 0 ++ p
             ++ List.replicate (newCap - pos1) 0,
           pos1, pos1, size + add)
  else
    let len1 := if pos1 > len then pos1 else len
    .ok (store.take pos ++ p ++ store.drop pos1, len1, pos1, size)

/-- Append a handle, returning its index and the new state. -/
def pushHandle (st : RFS) (h : RHandle) : Nat × RFS :=
  (st.handles.length, { st with handles := st.handles ++ [h] })

/-- `open(n, name, closed, flag, pos)` (ramfs.go lines 649-655): a directory
handle when `fileFS == nil`, otherwise a file handle with
`rdwr = flag & (O_RDONLY|O_WRONLY|O_RDWR)`. -/
def mkHandle (nd : RNode) (nid : Nat) (flag pos : Nat) : RHandle :=
  if nd.isFile then
    { node := some nid, isDir := false
      rdwr := flag &&& (O_RDONLY ||| O_WRONLY ||| O_RDWR), pos := pos, fin := 0 }
  else
    { node := some nid, isDir := true, rdwr := 0, pos := 0, fin := 0 }

/-- `OpenWithFinalizer` (ramfs.go lines 658-731).  On success the new handle
index is returned and the handle recorded; on every error path the source
invokes the finalizer and returns a wrapped errno (no handle is recorded,
matching the Go code where no handle escapes). -/
def openOp (st : RFS) (name : PathName) (flag : Nat) : Except Errno Nat × RFS :=
  if ¬ validPath name then (.error .EINVAL, st)
  else if name = ['.'] then
    if flag &&& O_CREAT ≠ 0 then (.error .ENOTSUP, st)
    else
      match st.arena.get? 0 with
      | none => (.error .EINVAL, st)
      | some root =>
        let (idx, st1) := pushHandle st (mkHandle root 0 flag 0)
        (.ok idx, st1)
  else
    match goFind st.arena 0 name with
    | some n =>
      match st.arena.get? n with
      | none => (.error .EINVAL, st)
      | some nd =>
        if flag &&& (O_TRUNC ||| O_APPEND) ≠ 0 then
          if flag &&& O_TRUNC ≠ 0 then
            let a1 := st.arena.set n { nd with store := [], len := 0 }
            let (idx, st1) := pushHandle { st with arena := a1 } (mkHandle nd n flag 0)
            (.ok idx, st1)
          else
            let (idx, st1) := pushHandle st (mkHandle nd n flag nd.len)
            (.ok idx, st1)
        else
          let (idx, st1) := pushHandle st (mkHandle nd n flag 0)
          (.ok idx, st1)
    | none =>
      if flag &&& O_CREAT = 0 then (.error .ENOENT, st)
      else
        match goFindDir st.arena name with
        | (none, _) => (.error .ENOENT, st)
        | (some d, base) =>
          match st.arena.get? d with
          | none => (.error .ENOENT, st)
          | some dnd =>
            if dnd.isFile then (.error .ENOTDIR, st)
            else
              match goFind st.arena d base with
              | none =>
                if st.size + (emptyFileSize : Int) > st.maxSize then (.error .ENOSPC, st)
                else
                  let newNode : RNode :=
                    { isFile := true, name := base, store := [], len := 0, children := [] }
                  let nid := st.arena.length
                  let a1 := linkChild (st.arena ++ [newNode]) d nid
                  let st1 := { st with arena := a1, size := st.size + emptyFileSize, items := st.items + 1 }
                  let (idx, st2) := pushHandle st1 (mkHandle newNode nid flag 0)
                  (.ok idx, st2)
              | some n =>
                if flag &&& O_EXCL = 0 then
                  match st.arena.get? n with
                  | none => (.error .ENOENT, st)
                  | some nd =>
                    let (idx, st1) := pushHandle st (mkHandle nd n flag 0)
                    (.ok idx, st1)
                else (.error .EEXIST, st)

/-- `Mkdir` (ramfs.go lines 747-792).  As in the source there is no check
for an existing sibling of the same name (the `BUG` comment). -/
def mkdirOp (st : RFS) (name : PathName) : Except Errno Unit × RFS :=
  if ¬ validPath name then (.error .EINVAL, st)
  else if name = ['.'] then (.error .EEXIST, st)
  else
    match goFindDir st.arena name with
    | (none, _) => (.error .ENOENT, st)
    | (some d, base) =>
      match st.arena.get? d with
      | none => (.error .ENOENT, st)
      | some dnd =>
        if dnd.isFile then (.error .ENOTDIR, st)
        else if st.size + (dirSize : Int) > st.maxSize then (.error .ENOSPC, st)
        else
          let newNode : RNode :=
            { isFile := false, name := base, store := [], len := 0, children := [] }
          let nid := st.arena.length
          let a1 := linkChild (st.arena ++ [newNode]) d nid
          (.ok (), { st with arena := a1, size := st.size + dirSize, items := st.items + 1 })

/-- `Remove` (ramfs.go lines 829-862). -/
def removeOp (st : RFS) (name : PathName) : Except Errno Unit × RFS :=
  if ¬ validPath name then (.error .EINVAL, st)
  else if name = ['.'] then (.error .ENOTSUP, st)
  else
    match goFindDir st.arena name with
    | (none, _) => (.error .ENOENT, st)
    | (some d, base) =>
      match st.arena.get? d with
      | none => (.error .ENOENT, st)
      | some dnd =>
        if dnd.isFile then (.error .ENOTDIR, st)
        else
          match unlinkChild st.arena d base with
          | (none, _) => (.error .ENOENT, st)
          | (some n, a1) =>
            (.ok (), { st with arena := a1, items := st.items - 1, size := st.size - contribAt st.arena n })

/-- `Rename` (ramfs.go lines 864-912): unlink from the old parent, then look
up the new parent; on a failed destination lookup the node is re-linked
into the old parent (compensating action).  As in the source there is no
check for an existing destination name, and no `ValidPath` check. -/
def renameOp (st : RFS) (oldname newname : PathName) : Except Errno Unit × RFS :=
  match goFindDir st.arena oldname with
  | (none, _) => (.error .ENOENT, st)
  | (some od, obase) =>
    match st.arena.get? od with
    | none => (.error .ENOENT, st)
    | some odnd =>
      if odnd.isFile then (.error .ENOENT, st)
      else
        match unlinkChild st.arena od obase with
        | (none, _) => (.error .ENOENT, st)
        | (some c, a1) =>
          match goFindDir a1 newname with
          | (none, _) => (.error .ENOENT, { st with arena := linkChild a1 od c })
          | (some nd, nbase) =>
            match a1.get? nd with
            | none => (.error .ENOENT, { st with arena := linkChild a1 od c })
            | some ndnd =>
              if ndnd.isFile then (.error .ENOTDIR, { st with arena := linkChild a1 od c })
              else
                match a1.get? c with
                | none => (.error .ENOENT, { st with arena := linkChild a1 od c })
                | some cnd =>
                  let a2 := a1.set c { cnd with name := nbase }
                  (.ok (), { st with arena := linkChild a2 nd c })

/-- `file.Write` (file.go lines 55-107): the `rdwr == O_RDONLY` guard
returns `EBADF`; a closed handle returns `EBADF`; a directory node returns
`EISDIR`; otherwise the locked write section runs.  A `Write` issued on a
directory handle follows the same defensive path. -/
def writeOp (st : RFS) (h : Nat) (p : List Nat) : Except Errno Nat × RFS :=
  match st.handles.get? h with
  | none => (.error .EBADF, st)
  | some hd =>
    if hd.rdwr = O_RDONLY then (.error .EBADF, st)
    else
      match hd.node with
      | none => (.error .EBADF, st)
      | some nid =>
        match st.arena.get? nid with
        | none => (.error .EBADF, st)
        | some nd =>
          if ¬ nd.isFile then (.error .EISDIR, st)
          else
            match fileWriteData nd.store nd.len hd.pos p st.size st.maxSize with
            | .error e => (.error e, st)
            | .ok (store1, len1, pos1, size1) =>
              (.ok p.length,
               { st with
                 arena := st.arena.set nid { nd with store := store1, len := len1 },
                 size := size1,
                 handles := st.handles.set h { hd with pos := pos1 } })

/-- `Close`: `file.Close` (file.go lines 117-129) invokes the finalizer and
nils the node reference on the first call, and returns `EBADF` afterwards;
`dir.Close` (dir.go lines 32-35) invokes the finalizer unconditionally and
always returns nil. -/
def closeOp (st : RFS) (h : Nat) : Except Errno Unit × RFS :=
  match st.handles.get? h with
  | none => (.error .EBADF, st)
  | some hd =>
    if hd.isDir then
      (.ok (), { st with handles := st.handles.set h { hd with fin := hd.fin + 1 } })
    else
      match hd.node with
      | none => (.error .EBADF, st)
      | some _ =>
        (.ok (), { st with handles := st.handles.set h { hd with fin := hd.fin + 1, node := none } })

/-- The sequential operations of the claim. -/
inductive ROp where
  | openf (name : PathName) (flag : Nat)
  | write (h : Nat) (p : List Nat)
  | mkdir (name : PathName)
  | remove (name : PathName)
  | rename (oldname newname : PathName)
  | close (h : Nat)
  deriving DecidableEq, Repr

/-- One sequential step (the returned error is discarded; the claim is about
the state at quiescent points). -/
def stepOp (st : RFS) : ROp → RFS
  | .openf name flag => (openOp st name flag).2
  | .write h p => (writeOp st h p).2
  | .mkdir name => (mkdirOp st name).2
  | .remove name => (removeOp st name).2
  | .rename o n => (renameOp st o n).2
  | .close h => (closeOp st h).2

/-- Run a sequence of operations from a state. -/
def runOps (st : RFS) (ops : List ROp) : RFS := ops.foldl stepOp st

/-- Sum of `size(n)` over the subtree rooted at `id`, with recursion fuel
(`arena.length` units suffice for any acyclic tree, which every reachable
state has). -/
def nodeSumAux (a : Arena) : Nat → Nat → Int
  | 0, _ => 0
  | fuel + 1, id =>
    match a.get? id with
    | none => 0
    | some nd =>
      if nd.isFile then nodeContrib nd
      else nodeContrib nd + (nd.children.map (nodeSumAux a fuel)).sum

/-- Sum of per-live-node contributions over all live non-root nodes: the
quantity the claim compares `Usage().used_bytes` against. -/
def liveBytes (st : RFS) : Int :=
  match st.arena.get? 0 with
  | none => 0
  | some root => (root.children.map (nodeSumAux st.arena st.arena.length)).sum

/-! ### List helpers used by the handle and frame lemmas -/

theorem listGet?_set_self {α : Type} (l : List α) (i : Nat) (x : α)
    (h : i < l.length) : (l.set i x).get? i = some x := by
  induction l generalizing i with
  | nil => simp at h
  | cons a tl ih =>
    cases i with
    | zero => rfl
    | succ j =>
      simp only [List.set_cons_succ, List.get?_cons_succ]
      exact ih j (by simp at h; omega)

theorem listGet?_set_ne {α : Type} (l : List α) (i j : Nat) (x : α)
    (h : j ≠ i) : (l.set i x).get? j = l.get? j := by
  induction l generalizing i j with
  | nil => simp
  | cons a tl ih =>
    cases i with
    | zero =>
      cases j with
      | zero => exact absurd rfl h
      | succ j1 => rfl
    | succ i1 =>
      cases j with
      | zero => rfl
      | succ j1 =>
        simp only [List.set_cons_succ, List.get?_cons_succ]
        exact ih i1 j1 (fun he => h (by rw [he]))

/-- C4 (code bug): a write through the read-only handle produced by
`Open("a.txt", O_CREAT, 0)` (so `rdwr = O_RDONLY`) returns `EBADF` — not
the `ENOTSUP` the claim and the repository's own test expect — and leaves
the state unchanged. -/
theorem ramfs_write_readonly_returns_EBADF :
    (writeOp (openOp (initRFS 1024) ['a', '.', 't', 'x', 't'] O_CREAT).2 0
      [116, 101, 115, 116, 10]).1 = .error .EBADF ∧
    (writeOp (openOp (initRFS 1024) ['a', '.', 't', 'x', 't'] O_CREAT).2 0
      [116, 101, 115, 116, 10]).2 =
      (openOp (initRFS 1024) ['a', '.', 't', 'x', 't'] O_CREAT).2 ∧
    Errno.EBADF ≠ Errno.ENOTSUP := by
  refine ⟨rfl, rfl, by decide⟩

/-- C6 (amended, for file handles): the first `Close` on an open file handle
succeeds, invokes the finalizer exactly once and nils the node reference;
a second `Close` returns `EBADF` without invoking the finalizer and leaves
the state fixed, hence every subsequent `Close` behaves identically. -/
theorem ramfs_file_close_exactly_once (st : RFS) (h nid rdwr pos fin : Nat)
    (hget : st.handles.get? h = some ⟨some nid, false, rdwr, pos, fin⟩) :
    (closeOp st h).1 = .ok () ∧
    ((closeOp st h).2.handles.get? h = some ⟨none, false, rdwr, pos, fin + 1⟩) ∧
    (closeOp (closeOp st h).2 h).1 = .error .EBADF ∧
    (closeOp (closeOp st h).2 h).2 = (closeOp st h).2 := by
  have hlt : h < st.handles.length := by
    by_contra hge
    rw [List.get?_eq_none.mpr (by omega)] at hget
    exact Option.noConfusion hget
  have hgb : st.handles[h]? = some ⟨some nid, false, rdwr, pos, fin⟩ := by
    rw [← List.get?_eq_getElem?]; exact hget
  have h1 : closeOp st h =
      (.ok (), { st with handles := st.handles.set h ⟨none, false, rdwr, pos, fin + 1⟩ }) := by
    simp [closeOp, hgb]
  have hget2 : ({ st with handles := st.handles.set h ⟨none, false, rdwr, pos, fin + 1⟩ } : RFS).handles.get? h
      = some ⟨none, false, rdwr, pos, fin + 1⟩ :=
    listGet?_set_self st.handles h _ hlt
  have hgb2 : (st.handles.set h ⟨none, false, rdwr, pos, fin + 1⟩)[h]? =
      some (⟨none, false, rdwr, pos, fin + 1⟩ : RHandle) := by
    rw [← List.get?_eq_getElem?]; exact hget2
  have h2 : closeOp { st with handles := st.handles.set h ⟨none, false, rdwr, pos, fin + 1⟩ } h
      = (.error .EBADF, { st with handles := st.handles.set h ⟨none, false, rdwr, pos, fin + 1⟩ }) := by
    simp [closeOp, hgb2]
  refine ⟨by rw [h1], by rw [h1]; exact hget2,
    by rw [h1]; dsimp only; exact congrArg Prod.fst h2,
    by rw [h1]; dsimp only; exact congrArg Prod.snd h2⟩

/-- Witness for the amended C6 at a freshly created file handle. -/
theorem ramfs_file_close_exactly_once_witness :
    (closeOp (openOp (initRFS 1024) ['a'] O_CREAT).2 0).1 = .ok () ∧
    ((closeOp (openOp (initRFS 1024) ['a'] O_CREAT).2 0).2.handles.get? 0 =
      some ⟨none, false, 0, 0, 0 + 1⟩) ∧
    (closeOp (closeOp (openOp (initRFS 1024) ['a'] O_CREAT).2 0).2 0).1 = .error .EBADF ∧
    (closeOp (closeOp (openOp (initRFS 1024) ['a'] O_CREAT).2 0).2 0).2 =
      (closeOp (openOp (initRFS 1024) ['a'] O_CREAT).2 0).2 :=
  ramfs_file_close_exactly_once (openOp (initRFS 1024) ['a'] O_CREAT).2 0 1 0 0 0 rfl

/-- C6 counterexample: a directory handle returned by
`OpenWithFinalizer(".", 0, 0, closed)`, closed twice: both closes return
nil (the second is not `EBADF`) and the finalizer runs twice. -/
theorem ramfs_dir_close_twice_counterexample :
    (closeOp (closeOp (openOp (initRFS 1024) ['.'] 0).2 0).2 0).1 = .ok () ∧
    (((closeOp (closeOp (openOp (initRFS 1024) ['.'] 0).2 0).2 0).2.handles.get? 0).map
      RHandle.fin = some 2) := by
  refine ⟨rfl, rfl⟩

/-- C9: a write that stays inside the current file content (`pos + len(p) ≤
len`) succeeds without touching the quota, replaces exactly the bytes at
positions `pos .. pos+len(p)` of the backing store, and keeps the slice
length — hence the file length — unchanged: a mid-file write never
truncates.  The second conjunct restates the frame on the visible file
content `store.take len`. -/
theorem ramfs_write_midfile_frame (store : List Nat) (len pos : Nat) (p : List Nat)
    (size maxSize : Int) (hlen : len ≤ store.length) (hmid : pos + p.length ≤ len) :
    fileWriteData store len pos p size maxSize =
      .ok (store.take pos ++ p ++ store.drop (pos + p.length), len, pos + p.length, size) ∧
    (store.take pos ++ p ++ store.drop (pos + p.length)).take len =
      (store.take len).take pos ++ p ++ ((store.take len).drop (pos + p.length)) ∧
    (store.take pos ++ p ++ store.drop (pos + p.length)).length = store.length := by
  have hpos1 : pos + p.length ≤ store.length := le_trans hmid hlen
  refine ⟨?_, ?_, ?_⟩
  · rw [fileWriteData]
    simp only [if_neg (by omega : ¬ pos + p.length > store.length),
      if_neg (by omega : ¬ pos + p.length > len)]
  · have h1 : ((store.take pos ++ p) ++ store.drop (pos + p.length)).take len =
        (store.take pos ++ p) ++ (store.drop (pos + p.length)).take (len - (pos + p.length)) := by
      rw [List.take_append_eq_append_take]
      congr 1
      · rw [List.take_of_length_le]
        rw [List.length_append, List.length_take]
        omega
      · congr 1
        rw [List.length_append, List.length_take]
        omega
    have h2 : (store.take len).take pos = store.take pos := by
      rw [List.take_take, min_eq_left (by omega)]
    have h3 : (store.take len).drop (pos + p.length) =
        (store.drop (pos + p.length)).take (len - (pos + p.length)) := by
      rw [List.drop_take]
    rw [h1, h2, h3]
  · simp only [List.length_append, List.length_take, List.length_drop]
    omega

/-- Witness for C9: overwrite two middle bytes of a four-byte file. -/
theorem ramfs_write_midfile_frame_witness :
    fileWriteData [1, 2, 3, 4, 9, 9] 4 1 [7, 8] 200 1024 =
      .ok ([1, 2, 3, 4, 9, 9].take 1 ++ [7, 8] ++ [1, 2, 3, 4, 9, 9].drop 3, 4, 3, 200) :=
  (ramfs_write_midfile_frame [1, 2, 3, 4, 9, 9] 4 1 [7, 8] 200 1024
    (by decide) (by decide)).1

/-! ### Surgery lemmas for the rename compensation (C5) -/

theorem listFindIdx?_decomp {α : Type} (p : α → Bool) :
    ∀ (l : List α) (j : Nat), l.findIdx? p = some j →
      ∃ pre c post, l = pre ++ c :: post ∧ pre.length = j ∧
        (∀ x ∈ pre, p x = false) ∧ p c = true := by
  intro l
  induction l with
  | nil => intro j h; rw [List.findIdx?_nil] at h; exact Option.noConfusion h
  | cons x xs ih =>
    intro j h
    rw [List.findIdx?_cons] at h
    by_cases hx : p x
    · rw [if_pos hx] at h
      injection h with h; subst h
      exact ⟨[], x, xs, rfl, rfl, by simp, hx⟩
    · rw [if_neg hx, List.findIdx?_succ] at h
      obtain ⟨j0, hj0, hj⟩ := Option.map_eq_some'.mp h
      subst hj
      obtain ⟨pre, c, post, hl, hlen, hpre, hc⟩ := ih j0 hj0
      refine ⟨x :: pre, c, post, by rw [hl]; rfl, by simp [hlen], ?_, hc⟩
      intro y hy
      rcases List.mem_cons.mp hy with h1 | h1
      · subst h1; simpa using hx
      · exact hpre y h1

theorem listEraseIdx_append_cons {α : Type} (pre post : List α) (c : α) :
    (pre ++ c :: post).eraseIdx pre.length = pre ++ post := by
  induction pre with
  | nil => rfl
  | cons x xs ih => simp only [List.cons_append, List.length_cons,
      List.eraseIdx_cons_succ, ih]

theorem listGet?_append_cons {α : Type} (pre post : List α) (c : α) :
    (pre ++ c :: post).get? pre.length = some c := by
  induction pre with
  | nil => rfl
  | cons x xs ih => simpa using ih

/-- Moving the (unique-among-matches) first hit of a scan to the front of
the list does not change any first-match query. -/
theorem listFind?_move_front {α : Type} (q : α → Bool) (pre post : List α) (c : α)
    (h : q c = true → ∀ x ∈ pre, q x = false) :
    (c :: (pre ++ post)).find? q = (pre ++ c :: post).find? q := by
  cases hq : q c with
  | false =>
    rw [List.find?_cons]
    simp only [hq]
    rw [List.find?_append, List.find?_append, List.find?_cons]
    simp only [hq]
  | true =>
    rw [List.find?_cons]
    simp only [hq]
    rw [List.find?_append, List.find?_cons]
    simp only [hq]
    have hn : pre.find? q = none :=
      List.find?_eq_none.mpr (fun x hx => by rw [h hq x hx]; simp)
    rw [hn]
    rfl

theorem listFind?_congrPred {α : Type} (p q : α → Bool) (h : ∀ x, p x = q x) :
    ∀ l : List α, l.find? p = l.find? q := by
  intro l
  induction l with
  | nil => rfl
  | cons x xs ih => rw [List.find?_cons, List.find?_cons, h x, ih]

/-- `find` only inspects node names, node kinds and child lists; two arenas
that agree on those observations yield identical lookups. -/
theorem findAux_ext (a a2 : Arena)
    (hfile : ∀ i, (a2.get? i).map RNode.isFile = (a.get? i).map RNode.isFile)
    (hchild : ∀ i seg, childNamed a2 (((a2.get? i).map RNode.children).getD []) seg
                     = childNamed a (((a.get? i).map RNode.children).getD []) seg) :
    ∀ fuel d name, findAux a2 fuel d name = findAux a fuel d name := by
  intro fuel
  induction fuel with
  | zero => intro d name; rfl
  | succ f ih =>
    intro d name
    rw [findAux, findAux]
    rw [hchild d (splitFirstSlash name).1]
    cases hcn : childNamed a (((a.get? d).map RNode.children).getD []) (splitFirstSlash name).1 with
    | none => rfl
    | some c =>
      dsimp only
      by_cases hrest : (splitFirstSlash name).2 = []
      · rw [if_pos hrest, if_pos hrest]
      · rw [if_neg hrest, if_neg hrest]
        have hf := hfile c
        cases h2 : a2.get? c with
        | none =>
          cases h1 : a.get? c with
          | none => rfl
          | some nd1 => rw [h2, h1] at hf; exact Option.noConfusion hf
        | some nd2 =>
          cases h1 : a.get? c with
          | none => rw [h2, h1] at hf; exact Option.noConfusion hf
          | some nd1 =>
            rw [h2, h1] at hf
            simp only [Option.map_some'] at hf
            injection hf with hf
            dsimp only
            rw [hf]
            by_cases hif : nd1.isFile
            · rw [if_pos hif, if_pos hif]
            · rw [if_neg hif, if_neg hif]
              exact ih c (splitFirstSlash name).2

/-- C5: if `Rename(old, new)` finds and unlinks the source entry but the
destination-parent lookup performed after the unlink yields no directory
(missing, or a file), then `Rename` returns an error, re-links the source
node (name unchanged) into its old parent, `Usage` is unchanged, and every
path lookup — in particular `Open(old)` — resolves exactly as before the
call: no entry is lost. -/
theorem ramfs_rename_failed_dest_relinks (st : RFS) (oldname newname : PathName)
    (od : Nat) (obase : PathName) (odnd : RNode) (c : Nat) (a1 : Arena)
    (h1 : goFindDir st.arena oldname = (some od, obase))
    (h2 : st.arena.get? od = some odnd)
    (h3 : odnd.isFile = false)
    (h4 : unlinkChild st.arena od obase = (some c, a1))
    (h5 : (goFindDir a1 newname).1 = none ∨
          ∃ nd2 nnd, (goFindDir a1 newname).1 = some nd2 ∧ a1.get? nd2 = some nnd ∧
            nnd.isFile = true) :
    (∃ e, (renameOp st oldname newname).1 = .error e) ∧
    rfsUsage (renameOp st oldname newname).2 = rfsUsage st ∧
    ∀ q : PathName, goFind (renameOp st oldname newname).2.arena 0 q = goFind st.arena 0 q := by
  -- decompose the unlink
  have h4u := h4
  rw [unlinkChild, h2] at h4u
  dsimp only at h4u
  cases hj : odnd.children.findIdx? (nameIs st.arena obase) with
  | none => rw [hj] at h4u; exact absurd (congrArg Prod.fst h4u) (by simp)
  | some j =>
  rw [hj] at h4u
  dsimp only at h4u
  have hcj : odnd.children.get? j = some c := by
    have := congrArg Prod.fst h4u; simpa using this
  have ha1 : a1 = st.arena.set od { odnd with children := odnd.children.eraseIdx j } := by
    have := congrArg Prod.snd h4u; simp at this; exact this.symm
  obtain ⟨pre, c0, post, hchil, hlenpre, hpre, hc0⟩ :=
    listFindIdx?_decomp (nameIs st.arena obase) odnd.children j hj
  have hc0c : c0 = c := by
    rw [hchil, ← hlenpre, listGet?_append_cons] at hcj
    injection hcj
  rw [hc0c] at hchil hc0
  have herase : odnd.children.eraseIdx j = pre ++ post := by
    rw [hchil, ← hlenpre, listEraseIdx_append_cons]
  have hodlt : od < st.arena.length := by
    rcases List.get?_eq_some.mp h2 with ⟨hlt, _⟩; exact hlt
  have ha1od : a1.get? od = some { odnd with children := pre ++ post } := by
    rw [ha1, herase]; exact listGet?_set_self st.arena od _ hodlt
  -- the relinked arena
  have ha2 : linkChild a1 od c = st.arena.set od { odnd with children := c :: (pre ++ post) } := by
    rw [linkChild, ha1od]
    dsimp only
    rw [ha1, herase, List.set_set]
  -- observational equality of the relinked arena with the original
  set a2pr := st.arena.set od { odnd with children := c :: (pre ++ post) } with ha2pr
  have hname : ∀ i, (a2pr.get? i).map RNode.name = (st.arena.get? i).map RNode.name := by
    intro i
    by_cases hi : i = od
    · rw [hi, listGet?_set_self st.arena od _ hodlt, h2]
      rfl
    · rw [listGet?_set_ne st.arena od i _ hi]
  have hfile : ∀ i, (a2pr.get? i).map RNode.isFile = (st.arena.get? i).map RNode.isFile := by
    intro i
    by_cases hi : i = od
    · rw [hi, listGet?_set_self st.arena od _ hodlt, h2]
      rfl
    · rw [listGet?_set_ne st.arena od i _ hi]
  have hpredEq : ∀ seg cid, nameIs a2pr seg cid = nameIs st.arena seg cid := by
    intro seg cid
    rw [nameIs, nameIs, hname cid]
  have hchildEq : ∀ i seg, childNamed a2pr (((a2pr.get? i).map RNode.children).getD []) seg
      = childNamed st.arena (((st.arena.get? i).map RNode.children).getD []) seg := by
    intro i seg
    by_cases hi : i = od
    · rw [hi, listGet?_set_self st.arena od _ hodlt, h2]
      show (c :: (pre ++ post)).find? (nameIs a2pr seg) = odnd.children.find? (nameIs st.arena seg)
      rw [listFind?_congrPred _ _ (hpredEq seg), hchil]
      refine listFind?_move_front (nameIs st.arena seg) pre post c ?_
      intro hqc x hx
      have hseg : seg = obase := by
        rw [nameIs] at hqc hc0
        have e1 := of_decide_eq_true hqc
        have e2 := of_decide_eq_true hc0
        rw [e1] at e2
        injection e2
      rw [hseg]
      exact hpre x hx
    · rw [listGet?_set_ne st.arena od i _ hi]
      exact listFind?_congrPred _ _ (hpredEq seg) _
  have hfind : ∀ q : PathName, goFind a2pr 0 q = goFind st.arena 0 q := by
    intro q
    exact findAux_ext st.arena a2pr hfile hchildEq (q.length + 1) 0 q
  -- evaluate renameOp on the two failing destination cases
  rcases h5 with h5a | ⟨nd2, nnd, h5b, h5c, h5d⟩
  · have hpair : goFindDir a1 newname = (none, (goFindDir a1 newname).2) := by
      apply Prod.ext <;> simp [h5a]
    have hrn : renameOp st oldname newname =
        (.error .ENOENT, { st with arena := linkChild a1 od c }) := by
      rw [renameOp, h1]
      dsimp only
      rw [h2]
      dsimp only
      rw [if_neg (by rw [h3]; exact Bool.false_ne_true), h4]
      dsimp only
      rw [hpair]
    rw [hrn]
    refine ⟨⟨.ENOENT, rfl⟩, rfl, ?_⟩
    intro q
    show goFind (linkChild a1 od c) 0 q = goFind st.arena 0 q
    rw [ha2]
    exact hfind q
  · have hpair : goFindDir a1 newname = (some nd2, (goFindDir a1 newname).2) := by
      apply Prod.ext <;> simp [h5b]
    have hrn : renameOp st oldname newname =
        (.error .ENOTDIR, { st with arena := linkChild a1 od c }) := by
      rw [renameOp, h1]
      dsimp only
      rw [h2]
      dsimp only
      rw [if_neg (by rw [h3]; exact Bool.false_ne_true), h4]
      dsimp only
      rw [hpair]
      dsimp only
      rw [h5c]
      dsimp only
      rw [if_pos h5d]
    rw [hrn]
    refine ⟨⟨.ENOTDIR, rfl⟩, rfl, ?_⟩
    intro q
    show goFind (linkChild a1 od c) 0 q = goFind st.arena 0 q
    rw [ha2]
    exact hfind q

/-- Witness for C5: create `"a"` in an empty ramfs, then
`Rename("a", "D/b")` with no directory `"D"`: an error is returned, usage
is unchanged, and `"a"` still resolves. -/
theorem ramfs_rename_failed_dest_relinks_witness :
    (∃ e, (renameOp (openOp (initRFS 1024) ['a'] O_CREAT).2 ['a'] ['D', '/', 'b']).1 =
      .error e) ∧
    rfsUsage (renameOp (openOp (initRFS 1024) ['a'] O_CREAT).2 ['a'] ['D', '/', 'b']).2 =
      rfsUsage (openOp (initRFS 1024) ['a'] O_CREAT).2 ∧
    goFind (renameOp (openOp (initRFS 1024) ['a'] O_CREAT).2 ['a'] ['D', '/', 'b']).2.arena
      0 ['a'] = goFind (openOp (initRFS 1024) ['a'] O_CREAT).2.arena 0 ['a'] := by
  have h := ramfs_rename_failed_dest_relinks (openOp (initRFS 1024) ['a'] O_CREAT).2
    ['a'] ['D', '/', 'b'] 0 ['a']
    { isFile := false, name := ['.'], store := [], len := 0, children := [1] } 1
    [{ isFile := false, name := ['.'], store := [], len := 0, children := [] },
     { isFile := true, name := ['a'], store := [], len := 0, children := [] }]
    rfl rfl rfl rfl (Or.inl rfl)
  exact ⟨h.1, h.2.1, h.2.2 ['a']⟩

/-! ### Mirror trees (proof scaffolding for the usage-accounting claim)

A reachable arena is acyclic; the certificate is a finite tree of arena
indices mirroring the live part of the arena.  Everything the machine's
`Usage`/`liveBytes` observables need is proved against this certificate. -/

inductive MT where
  | mk (id : Nat) (ts : List MT)
  deriving Repr

mutual
def MT.ids : MT → List Nat
  | .mk i ts => i :: MT.idsList ts
def MT.idsList : List MT → List Nat
  | [] => []
  | t :: ts => MT.ids t ++ MT.idsList ts
end

mutual
def MT.depth : MT → Nat
  | .mk _ ts => MT.depthList ts + 1
def MT.depthList : List MT → Nat
  | [] => 0
  | t :: ts => max (MT.depth t) (MT.depthList ts)
end

mutual
def MirrorsAt (a : Arena) (i : Nat) : MT → Prop
  | .mk j ts =>
    i = j ∧ ∃ nd, a.get? i = some nd ∧
      (if nd.isFile then ts = [] else MirrorsChildren a nd.children ts)
def MirrorsChildren (a : Arena) : List Nat → List MT → Prop
  | [], [] => True
  | c :: cs, t :: ts => MirrorsAt a c t ∧ MirrorsChildren a cs ts
  | _ :: _, [] => False
  | [], _ :: _ => False
end

/-- Root index of a mirror tree. -/
def MT.rootId : MT → Nat
  | .mk i _ => i

theorem MT.ids_mk (i : Nat) (ts : List MT) :
    (MT.mk i ts).ids = i :: MT.idsList ts := rfl

theorem MT.idsList_cons (t : MT) (ts : List MT) :
    MT.idsList (t :: ts) = t.ids ++ MT.idsList ts := rfl

theorem MT.rootId_mem_ids (t : MT) : t.rootId ∈ t.ids := by
  cases t with
  | mk i ts => rw [MT.ids_mk]; exact List.mem_cons_self i _

/-- Observational equality of node entries: whatever the mirror relation
reads (presence, kind, child list) agrees. -/
def obsEq : Option RNode → Option RNode → Prop
  | some n1, some n2 => n1.isFile = n2.isFile ∧ n1.children = n2.children
  | none, none => True
  | some _, none => False
  | none, some _ => False

theorem obsEq_refl (o : Option RNode) : obsEq o o := by
  cases o with
  | none => trivial
  | some nd => exact ⟨rfl, rfl⟩

theorem sizeOf_lt_of_mem_mt {t : MT} {ts : List MT} (h : t ∈ ts) :
    sizeOf t < sizeOf ts := List.sizeOf_lt_of_mem h

theorem mem_idsList_of_mem {t1 : MT} {ts : List MT} (h : t1 ∈ ts) :
    ∀ x ∈ t1.ids, x ∈ MT.idsList ts := by
  induction ts with
  | nil => simp at h
  | cons u us ihl =>
    intro x hx
    rw [MT.idsList_cons]
    rcases List.mem_cons.mp h with h1 | h1
    · subst h1; exact List.mem_append_left _ hx
    · exact List.mem_append_right _ (ihl h1 x hx)

/-- Transport of the mirror relation along observationally equal arenas. -/
theorem mirrors_transport (a a2 : Arena) :
    ∀ (t : MT) (i : Nat), (∀ x ∈ t.ids, obsEq (a2.get? x) (a.get? x)) →
      MirrorsAt a i t → MirrorsAt a2 i t := by
  suffices H : ∀ (n : Nat) (t : MT), sizeOf t ≤ n → ∀ (i : Nat),
      (∀ x ∈ t.ids, obsEq (a2.get? x) (a.get? x)) →
      MirrorsAt a i t → MirrorsAt a2 i t from
    fun t i hobs hm => H (sizeOf t) t le_rfl i hobs hm
  intro n
  induction n with
  | zero =>
    intro t hle
    cases t with
    | mk j ts => simp at hle
  | succ n ih =>
    intro t hle i hobs hm
    cases t with
    | mk j ts =>
      obtain ⟨hij, nd, hget, hrest⟩ := hm
      have hji : i ∈ (MT.mk j ts).ids := by
        rw [MT.ids_mk, hij]; exact List.mem_cons_self _ _
      have hoi := hobs i hji
      rw [hget] at hoi
      cases h2 : a2.get? i with
      | none => rw [h2] at hoi; exact hoi.elim
      | some nd2 =>
        rw [h2] at hoi
        obtain ⟨hof, hoc⟩ := hoi
        refine ⟨hij, nd2, h2, ?_⟩
        rw [hof, hoc]
        by_cases hf : nd.isFile
        · rw [if_pos hf] at hrest ⊢; exact hrest
        · rw [if_neg hf] at hrest ⊢
          have hts : ∀ t1 ∈ ts, sizeOf t1 ≤ n := by
            intro t1 ht1
            have := sizeOf_lt_of_mem_mt ht1
            simp at hle
            omega
          have hobs2 : ∀ t1 ∈ ts, ∀ x ∈ t1.ids, obsEq (a2.get? x) (a.get? x) := by
            intro t1 ht1 x hx
            refine hobs x ?_
            rw [MT.ids_mk]
            exact List.mem_cons_of_mem _ (mem_idsList_of_mem ht1 x hx)
          have hch : ∀ (us : List MT) (cs : List Nat), (∀ t1 ∈ us, sizeOf t1 ≤ n) →
              (∀ t1 ∈ us, ∀ x ∈ t1.ids, obsEq (a2.get? x) (a.get? x)) →
              MirrorsChildren a cs us → MirrorsChildren a2 cs us := by
            intro us
            induction us with
            | nil =>
              intro cs _ _ h
              cases cs with
              | nil => trivial
              | cons c cs2 => exact h.elim
            | cons u us2 ihl =>
              intro cs hts2 hobs3 h
              cases cs with
              | nil => exact h.elim
              | cons c cs2 =>
                obtain ⟨hh1, hh2⟩ := h
                exact ⟨ih u (hts2 u (by simp)) c (hobs3 u (by simp)) hh1,
                  ihl cs2 (fun t1 ht => hts2 t1 (by simp [ht]))
                    (fun t1 ht => hobs3 t1 (by simp [ht])) hh2⟩
          exact hch ts nd.children hts hobs2 hrest

mutual
def MT.sumC (a : Arena) : MT → Int
  | .mk i ts => contribAt a i + MT.sumCList a ts
def MT.sumCList (a : Arena) : List MT → Int
  | [] => 0
  | t :: ts => MT.sumC a t + MT.sumCList a ts
end

theorem MT.sumC_mk (a : Arena) (i : Nat) (ts : List MT) :
    MT.sumC a (MT.mk i ts) = contribAt a i + MT.sumCList a ts := rfl

theorem MT.sumCList_cons (a : Arena) (t : MT) (ts : List MT) :
    MT.sumCList a (t :: ts) = MT.sumC a t + MT.sumCList a ts := rfl

theorem contribAt_nonneg (a : Arena) (i : Nat) : 0 ≤ contribAt a i := by
  rw [contribAt]
  cases a.get? i with
  | none => exact le_refl 0
  | some nd =>
    simp only [nodeContrib]
    by_cases hf : nd.isFile
    · rw [if_pos hf]
      have : (0 : Int) ≤ (emptyFileSize : Int) := by
        rw [emptyFileSize, nodeSize]; omega
      have h2 : (0 : Int) ≤ (nd.store.length : Int) := Int.ofNat_nonneg _
      omega
    · rw [if_neg hf, dirSize, nodeSize]
      omega

/-- The subtree sum is the sum of contributions over the id list. -/
theorem MT.sumC_eq_ids (a : Arena) :
    ∀ t : MT, MT.sumC a t = (t.ids.map (contribAt a)).sum := by
  suffices H : ∀ (n : Nat) (t : MT), sizeOf t ≤ n →
      MT.sumC a t = (t.ids.map (contribAt a)).sum from
    fun t => H (sizeOf t) t le_rfl
  intro n
  induction n with
  | zero =>
    intro t hle
    cases t with
    | mk j ts => simp at hle
  | succ n ih =>
    intro t hle
    cases t with
    | mk j ts =>
      rw [MT.sumC_mk, MT.ids_mk, List.map_cons, List.sum_cons]
      have hts : ∀ t1 ∈ ts, sizeOf t1 ≤ n := by
        intro t1 ht1
        have := sizeOf_lt_of_mem_mt ht1
        simp at hle
        omega
      have hlist : ∀ us : List MT, (∀ t1 ∈ us, sizeOf t1 ≤ n) →
          MT.sumCList a us = ((MT.idsList us).map (contribAt a)).sum := by
        intro us
        induction us with
        | nil => intro _; rfl
        | cons u us2 ihl =>
          intro hus
          rw [MT.sumCList_cons, MT.idsList_cons, List.map_append, List.sum_append,
            ih u (hus u (by simp)), ihl (fun t1 ht => hus t1 (by simp [ht]))]
      rw [hlist ts hts]

theorem sumC_nonneg (a : Arena) (t : MT) : 0 ≤ MT.sumC a t := by
  rw [MT.sumC_eq_ids]
  refine List.sum_nonneg ?_
  intro x hx
  obtain ⟨i, _, hi⟩ := List.mem_map.mp hx
  rw [← hi]
  exact contribAt_nonneg a i

theorem sumCList_eq_ids (a : Arena) (us : List MT) :
    MT.sumCList a us = ((MT.idsList us).map (contribAt a)).sum := by
  induction us with
  | nil => rfl
  | cons u us2 ihl =>
    rw [MT.sumCList_cons, MT.idsList_cons, List.map_append, List.sum_append,
      MT.sumC_eq_ids, ihl]

/-- Sum over a `Nodup` id list after changing the arena only at `k`. -/
theorem sum_map_update (f g : Nat → Int) :
    ∀ (l : List Nat), l.Nodup → ∀ k, k ∈ l → (∀ x ∈ l, x ≠ k → g x = f x) →
      (l.map g).sum = (l.map f).sum + (g k - f k) := by
  intro l
  induction l with
  | nil => intro _ k hk; simp at hk
  | cons x xs ih =>
    intro hnd k hk hag
    rw [List.map_cons, List.map_cons, List.sum_cons, List.sum_cons]
    rcases List.mem_cons.mp hk with h1 | h1
    · subst h1
      have hnot : k ∉ xs := (List.nodup_cons.mp hnd).1
      have : xs.map g = xs.map f := by
        refine List.map_congr_left ?_
        intro y hy
        exact hag y (List.mem_cons_of_mem _ hy) (fun he => hnot (he ▸ hy))
      rw [this]; ring
    · have hxk : x ≠ k := fun he => (List.nodup_cons.mp hnd).1 (he ▸ h1)
      rw [hag x (List.mem_cons_self _ _) hxk,
        ih (List.nodup_cons.mp hnd).2 k h1 (fun y hy => hag y (List.mem_cons_of_mem _ hy))]
      ring

theorem sum_map_congr (f g : Nat → Int) (l : List Nat)
    (hag : ∀ x ∈ l, g x = f x) : (l.map g).sum = (l.map f).sum := by
  rw [List.map_congr_left hag]

theorem mem_idsList_exists {x : Nat} : ∀ {ts : List MT},
    x ∈ MT.idsList ts → ∃ u ∈ ts, x ∈ u.ids := by
  intro ts
  induction ts with
  | nil =>
    intro h
    have he : MT.idsList ([] : List MT) = [] := rfl
    rw [he] at h
    simp at h
  | cons u us ihl =>
    intro h
    rw [MT.idsList_cons] at h
    rcases List.mem_append.mp h with h1 | h1
    · exact ⟨u, by simp, h1⟩
    · obtain ⟨u2, hu2, hx⟩ := ihl h1
      exact ⟨u2, by simp [hu2], hx⟩

theorem mirrorsAt_root_mem {a : Arena} {c : Nat} {u : MT} (h : MirrorsAt a c u) :
    c ∈ u.ids := by
  cases u with
  | mk j ts =>
    obtain ⟨hij, _⟩ := h
    rw [MT.ids_mk, hij]
    exact List.mem_cons_self _ _

theorem mirrorsChildren_mem {a : Arena} : ∀ {cs : List Nat} {ts : List MT} {u : MT},
    MirrorsChildren a cs ts → u ∈ ts → ∃ c ∈ cs, MirrorsAt a c u := by
  intro cs ts
  induction ts generalizing cs with
  | nil => intro u _ hu; simp at hu
  | cons v vs ihl =>
    intro u h hu
    cases cs with
    | nil => exact h.elim
    | cons c cs2 =>
      obtain ⟨h1, h2⟩ := h
      rcases List.mem_cons.mp hu with hu1 | hu1
      · subst hu1; exact ⟨c, by simp, h1⟩
      · obtain ⟨c2, hc2, hm⟩ := ihl h2 hu1
        exact ⟨c2, by simp [hc2], hm⟩

theorem mirrorsChildren_child_mem {a : Arena} : ∀ {cs : List Nat} {ts : List MT} {c : Nat},
    MirrorsChildren a cs ts → c ∈ cs → ∃ u ∈ ts, MirrorsAt a c u := by
  intro cs ts
  induction ts generalizing cs with
  | nil =>
    intro c h hc
    cases cs with
    | nil => simp at hc
    | cons c2 cs2 => exact h.elim
  | cons v vs ihl =>
    intro c h hc
    cases cs with
    | nil => exact h.elim
    | cons c2 cs2 =>
      obtain ⟨h1, h2⟩ := h
      rcases List.mem_cons.mp hc with hc1 | hc1
      · subst hc1; exact ⟨v, by simp, h1⟩
      · obtain ⟨u2, hu2, hm⟩ := ihl h2 hc1
        exact ⟨u2, by simp [hu2], hm⟩

/-- Every live id roots a mirrored subtree whose ids stay inside the tree. -/
theorem mirrors_subtree (a : Arena) :
    ∀ (t : MT) (i d : Nat), MirrorsAt a i t → d ∈ t.ids →
      ∃ td, MirrorsAt a d td ∧ ∀ x ∈ td.ids, x ∈ t.ids := by
  suffices H : ∀ (n : Nat) (t : MT), sizeOf t ≤ n → ∀ (i d : Nat),
      MirrorsAt a i t → d ∈ t.ids →
      ∃ td, MirrorsAt a d td ∧ ∀ x ∈ td.ids, x ∈ t.ids from
    fun t i d hm hd => H (sizeOf t) t le_rfl i d hm hd
  intro n
  induction n with
  | zero =>
    intro t hle
    cases t with
    | mk j ts => simp at hle
  | succ n ih =>
    intro t hle i d hm hd
    cases t with
    | mk j ts =>
      obtain ⟨hij, nd, hget, hrest⟩ := hm
      rw [MT.ids_mk] at hd
      rcases List.mem_cons.mp hd with h1 | h1
      · subst h1
        exact ⟨MT.mk d ts, ⟨rfl, nd, hij ▸ hget, hrest⟩, fun x hx => hx⟩
      · obtain ⟨u, hu, hdu⟩ := mem_idsList_exists h1
        by_cases hf : nd.isFile
        · rw [if_pos hf] at hrest
          subst hrest
          simp at hu
        · rw [if_neg hf] at hrest
          obtain ⟨c, _, hcm⟩ := mirrorsChildren_mem hrest hu
          have hsz : sizeOf u ≤ n := by
            have := sizeOf_lt_of_mem_mt hu
            simp at hle
            omega
          obtain ⟨td, htd, hsub⟩ := ih u hsz c d hcm hdu
          refine ⟨td, htd, fun x hx => ?_⟩
          rw [MT.ids_mk]
          exact List.mem_cons_of_mem _ (mem_idsList_of_mem hu x (hsub x hx))

/-- The child list of a live directory node stays inside the live ids. -/
theorem mirrors_children_closed (a : Arena) (t : MT) (i d : Nat) (ndd : RNode)
    (hm : MirrorsAt a i t) (hd : d ∈ t.ids) (hget : a.get? d = some ndd)
    (hf : ndd.isFile = false) : ∀ c ∈ ndd.children, c ∈ t.ids := by
  intro c hc
  obtain ⟨td, htd, hsub⟩ := mirrors_subtree a t i d hm hd
  cases td with
  | mk j ts =>
    obtain ⟨hij, nd2, hget2, hrest⟩ := htd
    rw [hget] at hget2
    injection hget2 with hget2
    subst hget2
    rw [hf] at hrest
    simp only [Bool.false_eq_true, if_false] at hrest
    obtain ⟨u, hu, hcm⟩ := mirrorsChildren_child_mem hrest hc
    refine hsub c ?_
    rw [MT.ids_mk]
    exact List.mem_cons_of_mem _ (mem_idsList_of_mem hu c (mirrorsAt_root_mem hcm))

/-- `find` starting from a live directory only returns live ids. -/
theorem findAux_live (a : Arena) (t : MT) (hm : MirrorsAt a 0 t) :
    ∀ (fuel : Nat) (d : Nat) (name : PathName) (k : Nat),
      d ∈ t.ids → (∃ ndd, a.get? d = some ndd ∧ ndd.isFile = false) →
      findAux a fuel d name = some k → k ∈ t.ids := by
  intro fuel
  induction fuel with
  | zero => intro d name k _ _ h; exact Option.noConfusion h
  | succ f ih =>
    intro d name k hd hndd h
    obtain ⟨ndd, hget, hf⟩ := hndd
    rw [findAux] at h
    cases hcn : childNamed a ((a.get? d).map RNode.children |>.getD []) (splitFirstSlash name).1 with
    | none => rw [hcn] at h; exact Option.noConfusion h
    | some c =>
      rw [hcn] at h
      dsimp only at h
      have hcm : c ∈ ndd.children := by
        rw [childNamed] at hcn
        have := List.mem_of_find?_eq_some hcn
        rw [hget] at this
        simpa using this
      have hcl : c ∈ t.ids := mirrors_children_closed a t 0 d ndd hm hd hget hf c hcm
      by_cases hrest : (splitFirstSlash name).2 = []
      · rw [if_pos hrest] at h
        injection h with h
        subst h
        exact hcl
      · rw [if_neg hrest] at h
        cases hgc : a.get? c with
        | none => rw [hgc] at h; exact Option.noConfusion h
        | some ndc =>
          rw [hgc] at h
          dsimp only at h
          by_cases hfc : ndc.isFile
          · rw [if_pos hfc] at h; exact Option.noConfusion h
          · rw [if_neg hfc] at h
            exact ih c (splitFirstSlash name).2 k hcl ⟨ndc, hgc, by simpa using hfc⟩ h

/-- Liveness of `findDir` results (root, or a `find` result). -/
theorem goFindDir_live (a : Arena) (t : MT) (hm : MirrorsAt a 0 t)
    (hroot : t.rootId = 0) (name : PathName) (d : Nat) (base : PathName)
    (hgd : goFindDir a name = (some d, base))
    (hrootdir : ∃ nd0, a.get? 0 = some nd0 ∧ nd0.isFile = false) :
    d ∈ t.ids := by
  rw [goFindDir] at hgd
  cases hls : lastSlashIdx name with
  | none =>
    rw [hls] at hgd
    injection hgd with h1 _
    injection h1 with h1
    rw [← h1, ← hroot]
    exact MT.rootId_mem_ids t
  | some i =>
    rw [hls] at hgd
    dsimp only at hgd
    cases hgf : goFind a 0 (name.take i) with
    | none => rw [hgf] at hgd; exact absurd (congrArg Prod.fst hgd) (by simp)
    | some d2 =>
      rw [hgf] at hgd
      dsimp only at hgd
      have hd2 : d2 ∈ t.ids := by
        have hr0 : (0 : Nat) ∈ t.ids := by rw [← hroot]; exact MT.rootId_mem_ids t
        exact findAux_live a t hm _ 0 (name.take i) d2 hr0 hrootdir hgf
      cases hga : a.get? d2 with
      | none => rw [hga] at hgd; exact absurd (congrArg Prod.fst hgd) (by simp)
      | some nd2 =>
        rw [hga] at hgd
        dsimp only at hgd
        by_cases hf2 : nd2.isFile
        · rw [if_pos hf2] at hgd
          have := congrArg Prod.fst hgd
          simp at this
          rw [← this]
          exact hd2
        · rw [if_neg hf2] at hgd
          have := congrArg Prod.fst hgd
          simp at this
          rw [← this]
          exact hd2

theorem mirrorsChildren_transport (a a2 : Arena) :
    ∀ (ts : List MT) (cs : List Nat),
      (∀ t1 ∈ ts, ∀ x ∈ t1.ids, obsEq (a2.get? x) (a.get? x)) →
      MirrorsChildren a cs ts → MirrorsChildren a2 cs ts := by
  intro ts
  induction ts with
  | nil =>
    intro cs _ h
    cases cs with
    | nil => trivial
    | cons c cs2 => exact h.elim
  | cons u us ihl =>
    intro cs hobs h
    cases cs with
    | nil => exact h.elim
    | cons c cs2 =>
      obtain ⟨h1, h2⟩ := h
      exact ⟨mirrors_transport a a2 u c (hobs u (by simp)) h1,
        ihl cs2 (fun t1 ht => hobs t1 (by simp [ht])) h2⟩

theorem MT.idsList_append : ∀ (ts1 ts2 : List MT),
    MT.idsList (ts1 ++ ts2) = MT.idsList ts1 ++ MT.idsList ts2 := by
  intro ts1 ts2
  induction ts1 with
  | nil => rfl
  | cons u us ihl => rw [List.cons_append, MT.idsList_cons, MT.idsList_cons, ihl,
      List.append_assoc]

theorem mirrorsChildren_append_split (a : Arena) :
    ∀ (xs : List Nat) (y : Nat) (zs : List Nat) (ts : List MT),
      MirrorsChildren a (xs ++ y :: zs) ts →
      ∃ ts1 tu ts2, ts = ts1 ++ tu :: ts2 ∧ MirrorsChildren a xs ts1 ∧
        MirrorsAt a y tu ∧ MirrorsChildren a zs ts2 := by
  intro xs
  induction xs with
  | nil =>
    intro y zs ts h
    cases ts with
    | nil => exact h.elim
    | cons tu ts2 =>
      obtain ⟨h1, h2⟩ := h
      exact ⟨[], tu, ts2, rfl, trivial, h1, h2⟩
  | cons x xs2 ihl =>
    intro y zs ts h
    cases ts with
    | nil => exact h.elim
    | cons tu0 ts0 =>
      obtain ⟨h1, h2⟩ := h
      obtain ⟨ts1, tu, ts2, he, hxs, hy, hzs⟩ := ihl y zs ts0 h2
      exact ⟨tu0 :: ts1, tu, ts2, by rw [he]; rfl, ⟨h1, hxs⟩, hy, hzs⟩

theorem mirrorsChildren_append (a : Arena) :
    ∀ (xs : List Nat) (ts1 : List MT) (zs : List Nat) (ts2 : List MT),
      MirrorsChildren a xs ts1 → MirrorsChildren a zs ts2 →
      MirrorsChildren a (xs ++ zs) (ts1 ++ ts2) := by
  intro xs
  induction xs with
  | nil =>
    intro ts1 zs ts2 h1 h2
    cases ts1 with
    | nil => exact h2
    | cons u us => exact h1.elim
  | cons x xs2 ihl =>
    intro ts1 zs ts2 h1 h2
    cases ts1 with
    | nil => exact h1.elim
    | cons u us =>
      obtain ⟨ha, hb⟩ := h1
      exact ⟨ha, ihl us zs ts2 hb h2⟩

theorem ids_sublist_of_mem : ∀ {us : List MT} {u : MT}, u ∈ us →
    u.ids.Sublist (MT.idsList us) := by
  intro us
  induction us with
  | nil => intro u h; simp at h
  | cons v vs ihl =>
    intro u h
    rw [MT.idsList_cons]
    rcases List.mem_cons.mp h with h1 | h1
    · subst h1; exact List.sublist_append_left _ _
    · exact (ihl h1).trans (List.sublist_append_right _ _)

theorem listGet?_some_lt {α : Type} {l : List α} {i : Nat} {x : α}
    (h : l.get? i = some x) : i < l.length := by
  by_contra hcon
  rw [List.get?_eq_none.mpr (by omega)] at h
  exact Option.noConfusion h

/-- Attaching a new child `c` to a live directory `d` of a mirrored tree
yields a mirrored tree whose id list is, up to permutation, the attached
subtree's ids followed by the old ids. -/
theorem mirrors_attach (a a2 : Arena) (d c : Nat) (dnd : RNode) (tc : MT)
    (hget : a.get? d = some dnd) (hf : dnd.isFile = false)
    (ha2 : a2 = a.set d { dnd with children := c :: dnd.children })
    (htc : MirrorsAt a2 c tc) :
    ∀ (t : MT) (i : Nat), MirrorsAt a i t → (t.ids ++ tc.ids).Nodup → d ∈ t.ids →
      ∃ t', MirrorsAt a2 i t' ∧ t'.ids.Perm (tc.ids ++ t.ids) := by
  have hdlt : d < a.length := listGet?_some_lt hget
  suffices H : ∀ (n : Nat) (t : MT), sizeOf t ≤ n → ∀ (i : Nat),
      MirrorsAt a i t → (t.ids ++ tc.ids).Nodup → d ∈ t.ids →
      ∃ t', MirrorsAt a2 i t' ∧ t'.ids.Perm (tc.ids ++ t.ids) from
    fun t i hm hnd hd => H (sizeOf t) t le_rfl i hm hnd hd
  intro n
  induction n with
  | zero =>
    intro t hle
    cases t with
    | mk j ts => simp at hle
  | succ n ih =>
    intro t hle i hm hnd hd
    cases t with
    | mk j ts =>
      obtain ⟨hij, nd, hgeti, hrest⟩ := hm
      rw [MT.ids_mk] at hnd hd
      have hndl : (j :: MT.idsList ts).Nodup := (List.nodup_append.mp hnd).1
      rcases List.mem_cons.mp hd with hdj | hdts
      · -- the root of `t` is the directory receiving the new child
        have hij2 : i = d := by rw [hij, hdj]
        have hnddn : nd = dnd := by
          rw [hij2, hget] at hgeti
          exact (Option.some.inj hgeti).symm
        rw [hnddn, hf] at hrest
        simp only [Bool.false_eq_true, if_false] at hrest
        have hdnotin : d ∉ MT.idsList ts := by
          rw [hdj]
          exact (List.nodup_cons.mp hndl).1
        have hmc' : MirrorsChildren a2 dnd.children ts := by
          refine mirrorsChildren_transport a a2 ts dnd.children ?_ hrest
          intro t1 ht1 x hx
          have hxid : x ∈ MT.idsList ts := mem_idsList_of_mem ht1 x hx
          have hxd : x ≠ d := fun he => hdnotin (he ▸ hxid)
          rw [ha2, listGet?_set_ne a d x _ hxd]
          exact obsEq_refl _
        refine ⟨MT.mk j (tc :: ts), ⟨hij, { dnd with children := c :: dnd.children }, ?_, ?_⟩, ?_⟩
        · rw [hij2, ha2]
          exact listGet?_set_self a d _ hdlt
        · have hff : ({ dnd with children := c :: dnd.children } : RNode).isFile = false := hf
          rw [hff]
          simp only [Bool.false_eq_true, if_false]
          exact ⟨htc, hmc'⟩
        · simp only [MT.ids_mk, MT.idsList_cons]
          exact List.perm_middle.symm
      · -- the directory lies strictly below the root of `t`
        have hjd : j ≠ d := fun he => (List.nodup_cons.mp hndl).1 (by rw [he]; exact hdts)
        by_cases hfi : nd.isFile
        · rw [if_pos hfi] at hrest
          rw [hrest] at hdts
          have he0 : MT.idsList ([] : List MT) = [] := rfl
          rw [he0] at hdts
          simp at hdts
        · rw [if_neg hfi] at hrest
          have hszts : ∀ u ∈ ts, sizeOf u ≤ n := by
            intro u hu
            have := sizeOf_lt_of_mem_mt hu
            simp at hle
            omega
          have hndts : (MT.idsList ts ++ tc.ids).Nodup := by
            refine List.Nodup.sublist ?_ hnd
            exact List.Sublist.append_right (List.sublist_cons_self _ _) _
          have hlist : ∀ (us : List MT), (∀ u ∈ us, sizeOf u ≤ n) →
              ∀ (cs : List Nat), MirrorsChildren a cs us →
              (MT.idsList us ++ tc.ids).Nodup → d ∈ MT.idsList us →
              ∃ us', MirrorsChildren a2 cs us' ∧
                (MT.idsList us').Perm (tc.ids ++ MT.idsList us) := by
            intro us
            induction us with
            | nil =>
              intro _ cs _ _ hd2
              have he0 : MT.idsList ([] : List MT) = [] := rfl
              rw [he0] at hd2
              simp at hd2
            | cons u us2 ihl =>
              intro hsz cs hmc hnd2 hd2
              cases cs with
              | nil => exact hmc.elim
              | cons c0 cs2 =>
                obtain ⟨hmu, hrest2⟩ := hmc
                rw [MT.idsList_cons] at hnd2 hd2
                by_cases hdu : d ∈ u.ids
                · have hndu : (u.ids ++ tc.ids).Nodup := by
                    refine List.Nodup.sublist ?_ hnd2
                    rw [List.append_assoc]
                    exact List.Sublist.append_left (List.sublist_append_right _ _) _
                  obtain ⟨tu', htu', hperm⟩ := ih u (hsz u (by simp)) c0 hmu hndu hdu
                  have hdus2 : d ∉ MT.idsList us2 := by
                    have hdisj := (List.nodup_append.mp (List.nodup_append.mp hnd2).1).2.2
                    exact fun hx => hdisj hdu hx
                  have hmc2' : MirrorsChildren a2 cs2 us2 := by
                    refine mirrorsChildren_transport a a2 us2 cs2 ?_ hrest2
                    intro t1 ht1 x hx
                    have hxid : x ∈ MT.idsList us2 := mem_idsList_of_mem ht1 x hx
                    have hxd : x ≠ d := fun he => hdus2 (he ▸ hxid)
                    rw [ha2, listGet?_set_ne a d x _ hxd]
                    exact obsEq_refl _
                  refine ⟨tu' :: us2, ⟨htu', hmc2'⟩, ?_⟩
                  simp only [MT.idsList_cons]
                  refine List.Perm.trans (List.Perm.append_right _ hperm) ?_
                  rw [List.append_assoc]
                · have hdus2 : d ∈ MT.idsList us2 := by
                    rcases List.mem_append.mp hd2 with h1 | h1
                    · exact absurd h1 hdu
                    · exact h1
                  have hnd2' : (MT.idsList us2 ++ tc.ids).Nodup := by
                    refine List.Nodup.sublist ?_ hnd2
                    exact List.Sublist.append_right (List.sublist_append_right _ _) _
                  obtain ⟨us2', hmc2', hperm2⟩ :=
                    ihl (fun u1 hu1 => hsz u1 (by simp [hu1])) cs2 hrest2 hnd2' hdus2
                  have hmu' : MirrorsAt a2 c0 u := by
                    refine mirrors_transport a a2 u c0 ?_ hmu
                    intro x hx
                    have hxd : x ≠ d := fun he => hdu (he ▸ hx)
                    rw [ha2, listGet?_set_ne a d x _ hxd]
                    exact obsEq_refl _
                  refine ⟨u :: us2', ⟨hmu', hmc2'⟩, ?_⟩
                  simp only [MT.idsList_cons]
                  refine List.Perm.trans (List.Perm.append_left _ hperm2) ?_
                  rw [← List.append_assoc, ← List.append_assoc]
                  exact List.Perm.append_right _ List.perm_append_comm
          obtain ⟨us', hmc', hperm⟩ := hlist ts hszts nd.children hrest hndts hdts
          refine ⟨MT.mk j us', ⟨hij, nd, ?_, ?_⟩, ?_⟩
          · rw [ha2, listGet?_set_ne a d i _ (by rw [hij]; exact hjd)]
            exact hgeti
          · rw [if_neg hfi]
            exact hmc'
          · simp only [MT.ids_mk]
            refine List.Perm.trans (List.Perm.cons j hperm) ?_
            exact List.perm_middle.symm

/-- Detaching the child `c` of a live directory `d` splits the mirror tree:
the remainder and the detached subtree both mirror the updated arena, and
the old ids are, up to permutation, the detached ids plus the remainder. -/
theorem mirrors_detach (a a2 : Arena) (d c : Nat) (dnd : RNode) (pre post : List Nat)
    (hget : a.get? d = some dnd) (hf : dnd.isFile = false)
    (hch : dnd.children = pre ++ c :: post)
    (ha2 : a2 = a.set d { dnd with children := pre ++ post }) :
    ∀ (t : MT) (i : Nat), MirrorsAt a i t → t.ids.Nodup → d ∈ t.ids →
      ∃ t' tcu, MirrorsAt a2 i t' ∧ MirrorsAt a2 c tcu ∧
        t.ids.Perm (tcu.ids ++ t'.ids) ∧ d ∈ t'.ids := by
  have hdlt : d < a.length := listGet?_some_lt hget
  suffices H : ∀ (n : Nat) (t : MT), sizeOf t ≤ n → ∀ (i : Nat),
      MirrorsAt a i t → t.ids.Nodup → d ∈ t.ids →
      ∃ t' tcu, MirrorsAt a2 i t' ∧ MirrorsAt a2 c tcu ∧
        t.ids.Perm (tcu.ids ++ t'.ids) ∧ d ∈ t'.ids from
    fun t i hm hnd hd => H (sizeOf t) t le_rfl i hm hnd hd
  intro n
  induction n with
  | zero =>
    intro t hle
    cases t with
    | mk j ts => simp at hle
  | succ n ih =>
    intro t hle i hm hnd hd
    cases t with
    | mk j ts =>
      obtain ⟨hij, nd, hgeti, hrest⟩ := hm
      rw [MT.ids_mk] at hnd hd
      rcases List.mem_cons.mp hd with hdj | hdts
      · -- the root of `t` is the directory losing the child
        have hij2 : i = d := by rw [hij, hdj]
        have hnddn : nd = dnd := by
          rw [hij2, hget] at hgeti
          exact (Option.some.inj hgeti).symm
        rw [hnddn, hf] at hrest
        simp only [Bool.false_eq_true, if_false] at hrest
        rw [hch] at hrest
        obtain ⟨ts1, tu, ts2, hts, hpre, hcu, hpost⟩ :=
          mirrorsChildren_append_split a pre c post ts hrest
        have hdnotin : d ∉ MT.idsList ts := by
          rw [hdj]
          exact (List.nodup_cons.mp hnd).1
        have hmemts : ∀ t1, t1 ∈ ts1 ∨ t1 = tu ∨ t1 ∈ ts2 → t1 ∈ ts := by
          intro t1 h1
          rw [hts]
          rcases h1 with h1 | h1 | h1
          · exact List.mem_append_left _ h1
          · exact List.mem_append_right _ (by rw [h1]; exact List.mem_cons_self _ _)
          · exact List.mem_append_right _ (List.mem_cons_of_mem _ h1)
        have htrans : ∀ t1 ∈ ts, ∀ x ∈ t1.ids, obsEq (a2.get? x) (a.get? x) := by
          intro t1 ht1 x hx
          have hxid : x ∈ MT.idsList ts := mem_idsList_of_mem ht1 x hx
          have hxd : x ≠ d := fun he => hdnotin (he ▸ hxid)
          rw [ha2, listGet?_set_ne a d x _ hxd]
          exact obsEq_refl _
        have hpre' : MirrorsChildren a2 pre ts1 :=
          mirrorsChildren_transport a a2 ts1 pre
            (fun t1 ht1 => htrans t1 (hmemts t1 (Or.inl ht1))) hpre
        have hpost' : MirrorsChildren a2 post ts2 :=
          mirrorsChildren_transport a a2 ts2 post
            (fun t1 ht1 => htrans t1 (hmemts t1 (Or.inr (Or.inr ht1)))) hpost
        have hcu' : MirrorsAt a2 c tu :=
          mirrors_transport a a2 tu c (htrans tu (hmemts tu (Or.inr (Or.inl rfl)))) hcu
        refine ⟨MT.mk j (ts1 ++ ts2), tu,
          ⟨hij, { dnd with children := pre ++ post }, ?_, ?_⟩, hcu', ?_, ?_⟩
        · rw [hij2, ha2]
          exact listGet?_set_self a d _ hdlt
        · have hff : ({ dnd with children := pre ++ post } : RNode).isFile = false := hf
          rw [hff]
          simp only [Bool.false_eq_true, if_false]
          exact mirrorsChildren_append a2 pre ts1 post ts2 hpre' hpost'
        · rw [hts]
          simp only [MT.ids_mk, MT.idsList_append, MT.idsList_cons]
          refine List.Perm.trans ?_ List.perm_middle.symm
          refine List.Perm.cons j ?_
          rw [← List.append_assoc, ← List.append_assoc]
          exact List.Perm.append_right _ List.perm_append_comm
        · rw [MT.ids_mk, hdj]
          exact List.mem_cons_self _ _
      · -- the directory lies strictly below the root of `t`
        have hjd : j ≠ d := fun he => (List.nodup_cons.mp hnd).1 (by rw [he]; exact hdts)
        by_cases hfi : nd.isFile
        · rw [if_pos hfi] at hrest
          rw [hrest] at hdts
          have he0 : MT.idsList ([] : List MT) = [] := rfl
          rw [he0] at hdts
          simp at hdts
        · rw [if_neg hfi] at hrest
          have hszts : ∀ u ∈ ts, sizeOf u ≤ n := by
            intro u hu
            have := sizeOf_lt_of_mem_mt hu
            simp at hle
            omega
          have hndts : (MT.idsList ts).Nodup := (List.nodup_cons.mp hnd).2
          have hlist : ∀ (us : List MT), (∀ u ∈ us, sizeOf u ≤ n) →
              ∀ (cs : List Nat), MirrorsChildren a cs us →
              (MT.idsList us).Nodup → d ∈ MT.idsList us →
              ∃ us' tcu, MirrorsChildren a2 cs us' ∧ MirrorsAt a2 c tcu ∧
                (MT.idsList us).Perm (tcu.ids ++ MT.idsList us') ∧
                d ∈ MT.idsList us' := by
            intro us
            induction us with
            | nil =>
              intro _ cs _ _ hd2
              have he0 : MT.idsList ([] : List MT) = [] := rfl
              rw [he0] at hd2
              simp at hd2
            | cons u us2 ihl =>
              intro hsz cs hmc hnd2 hd2
              cases cs with
              | nil => exact hmc.elim
              | cons c0 cs2 =>
                obtain ⟨hmu, hrest2⟩ := hmc
                rw [MT.idsList_cons] at hnd2 hd2
                by_cases hdu : d ∈ u.ids
                · obtain ⟨tu', tcu, htu', htcu, hperm, hdt'⟩ :=
                    ih u (hsz u (by simp)) c0 hmu (List.nodup_append.mp hnd2).1 hdu
                  have hdus2 : d ∉ MT.idsList us2 :=
                    fun hx => (List.nodup_append.mp hnd2).2.2 hdu hx
                  have hmc2' : MirrorsChildren a2 cs2 us2 := by
                    refine mirrorsChildren_transport a a2 us2 cs2 ?_ hrest2
                    intro t1 ht1 x hx
                    have hxid : x ∈ MT.idsList us2 := mem_idsList_of_mem ht1 x hx
                    have hxd : x ≠ d := fun he => hdus2 (he ▸ hxid)
                    rw [ha2, listGet?_set_ne a d x _ hxd]
                    exact obsEq_refl _
                  refine ⟨tu' :: us2, tcu, ⟨htu', hmc2'⟩, htcu, ?_, ?_⟩
                  · simp only [MT.idsList_cons]
                    refine List.Perm.trans (List.Perm.append_right _ hperm) ?_
                    rw [List.append_assoc]
                  · simp only [MT.idsList_cons]
                    exact List.mem_append_left _ hdt'
                · have hdus2 : d ∈ MT.idsList us2 := by
                    rcases List.mem_append.mp hd2 with h1 | h1
                    · exact absurd h1 hdu
                    · exact h1
                  obtain ⟨us2', tcu, hmc2', htcu, hperm2, hdt'⟩ :=
                    ihl (fun u1 hu1 => hsz u1 (by simp [hu1])) cs2 hrest2
                      (List.nodup_append.mp hnd2).2.1 hdus2
                  have hmu' : MirrorsAt a2 c0 u := by
                    refine mirrors_transport a a2 u c0 ?_ hmu
                    intro x hx
                    have hxd : x ≠ d := fun he => hdu (he ▸ hx)
                    rw [ha2, listGet?_set_ne a d x _ hxd]
                    exact obsEq_refl _
                  refine ⟨u :: us2', tcu, ⟨hmu', hmc2'⟩, htcu, ?_, ?_⟩
                  · simp only [MT.idsList_cons]
                    refine List.Perm.trans (List.Perm.append_left _ hperm2) ?_
                    rw [← List.append_assoc, ← List.append_assoc]
                    exact List.Perm.append_right _ List.perm_append_comm
                  · simp only [MT.idsList_cons]
                    exact List.mem_append_right _ hdt'
          obtain ⟨us', tcu, hmc', htcu, hperm, hdt'⟩ :=
            hlist ts hszts nd.children hrest hndts hdts
          refine ⟨MT.mk j us', tcu, ⟨hij, nd, ?_, ?_⟩, htcu, ?_, ?_⟩
          · rw [ha2, listGet?_set_ne a d i _ (by rw [hij]; exact hjd)]
            exact hgeti
          · rw [if_neg hfi]
            exact hmc'
          · simp only [MT.ids_mk]
            refine List.Perm.trans (List.Perm.cons j hperm) ?_
            exact List.perm_middle.symm
          · rw [MT.ids_mk]
            exact List.mem_cons_of_mem _ hdt'

theorem mirrors_ids_lt (a : Arena) (t : MT) (i : Nat) (hm : MirrorsAt a i t) :
    ∀ x ∈ t.ids, x < a.length := by
  intro x hx
  obtain ⟨td, htd, _⟩ := mirrors_subtree a t i x hm hx
  cases td with
  | mk j ts =>
    obtain ⟨hxj, nd, hget, _⟩ := htd
    exact listGet?_some_lt hget

theorem MT.depth_mk (j : Nat) (ts : List MT) :
    (MT.mk j ts).depth = MT.depthList ts + 1 := rfl

theorem MT.depthList_cons (u : MT) (us : List MT) :
    MT.depthList (u :: us) = max u.depth (MT.depthList us) := rfl

theorem MT.depth_pos (t : MT) : 1 ≤ t.depth := by
  cases t with
  | mk j ts => rw [MT.depth_mk]; omega

theorem depth_le_ids_length : ∀ (t : MT), t.depth ≤ t.ids.length := by
  suffices H : ∀ (n : Nat) (t : MT), sizeOf t ≤ n → t.depth ≤ t.ids.length from
    fun t => H (sizeOf t) t le_rfl
  intro n
  induction n with
  | zero =>
    intro t hle
    cases t with
    | mk j ts => simp at hle
  | succ n ih =>
    intro t hle
    cases t with
    | mk j ts =>
      rw [MT.depth_mk, MT.ids_mk, List.length_cons]
      have hszts : ∀ u ∈ ts, sizeOf u ≤ n := by
        intro u hu
        have := sizeOf_lt_of_mem_mt hu
        simp at hle
        omega
      have hlist : ∀ us : List MT, (∀ u ∈ us, sizeOf u ≤ n) →
          MT.depthList us ≤ (MT.idsList us).length := by
        intro us
        induction us with
        | nil => intro _; exact Nat.le_refl 0
        | cons u us2 ihl =>
          intro hsz
          rw [MT.depthList_cons, MT.idsList_cons, List.length_append]
          have h1 := ih u (hsz u (by simp))
          have h2 := ihl (fun u1 hu1 => hsz u1 (by simp [hu1]))
          omega
      have := hlist ts hszts
      omega

theorem nodup_lt_length_le (l : List Nat) (L : Nat) (hnd : l.Nodup)
    (hlt : ∀ x ∈ l, x < L) : l.length ≤ L := by
  have h1 : l.toFinset ⊆ Finset.range L := by
    intro x hx
    rw [Finset.mem_range]
    exact hlt x (List.mem_toFinset.mp hx)
  have h2 := Finset.card_le_card h1
  rw [List.toFinset_card_of_nodup hnd, Finset.card_range] at h2
  exact h2

/-- With fuel at least the tree depth, `nodeSumAux` computes the mirror
subtree sum. -/
theorem nodeSumAux_eq_sumC (a : Arena) : ∀ (fuel : Nat) (t : MT) (i : Nat),
    MirrorsAt a i t → t.depth ≤ fuel → nodeSumAux a fuel i = MT.sumC a t := by
  intro fuel
  induction fuel with
  | zero =>
    intro t i _ hdep
    have := MT.depth_pos t
    omega
  | succ f ih =>
    intro t i hm hdep
    cases t with
    | mk j ts =>
      obtain ⟨hij, nd, hget, hrest⟩ := hm
      rw [nodeSumAux, hget]
      dsimp only
      rw [MT.sumC_mk, ← hij, contribAt, hget]
      dsimp only
      by_cases hfi : nd.isFile
      · rw [if_pos hfi] at hrest ⊢
        rw [hrest]
        have hsl : MT.sumCList a ([] : List MT) = 0 := rfl
        rw [hsl]
        omega
      · rw [if_neg hfi] at hrest ⊢
        have hdle : MT.depthList ts ≤ f := by
          rw [MT.depth_mk] at hdep
          omega
        have hlist : ∀ (us : List MT) (cs : List Nat), MirrorsChildren a cs us →
            MT.depthList us ≤ f →
            (cs.map (nodeSumAux a f)).sum = MT.sumCList a us := by
          intro us
          induction us with
          | nil =>
            intro cs hmc _
            cases cs with
            | nil => rfl
            | cons c cs2 => exact hmc.elim
          | cons u us2 ihl =>
            intro cs hmc hdl
            cases cs with
            | nil => exact hmc.elim
            | cons c cs2 =>
              obtain ⟨hmu, hrest2⟩ := hmc
              rw [MT.depthList_cons] at hdl
              rw [List.map_cons, List.sum_cons, MT.sumCList_cons,
                ih u c hmu (by omega), ihl cs2 hrest2 (by omega)]
        rw [hlist ts nd.children hrest hdle]

/-- With a `Nodup` mirror of the arena rooted at the directory root node,
`liveBytes` computes the mirror sum without the root's own contribution. -/
theorem liveBytes_eq (st : RFS) (t : MT) (hm : MirrorsAt st.arena 0 t)
    (hnd : t.ids.Nodup)
    (hroot : ∃ rnd, st.arena.get? 0 = some rnd ∧ rnd.isFile = false) :
    liveBytes st = MT.sumC st.arena t - contribAt st.arena 0 := by
  cases t with
  | mk j ts =>
    obtain ⟨hij, nd, hget, hrest⟩ := hm
    have hfi : nd.isFile = false := by
      obtain ⟨rnd, hget2, hrf⟩ := hroot
      rw [hget] at hget2
      rw [Option.some.inj hget2]
      exact hrf
    rw [hfi] at hrest
    simp only [Bool.false_eq_true, if_false] at hrest
    rw [liveBytes, hget]
    dsimp only
    rw [MT.sumC_mk, ← hij, contribAt, hget]
    have hbound : ∀ x ∈ (MT.mk j ts).ids, x < st.arena.length :=
      mirrors_ids_lt st.arena (MT.mk j ts) 0
        ⟨hij, nd, hget, by rw [hfi]; simpa using hrest⟩
    have hfuel : ∀ u ∈ ts, u.depth ≤ st.arena.length := by
      intro u hu
      have h1 := depth_le_ids_length u
      have hsub : u.ids.Sublist (MT.mk j ts).ids := by
        rw [MT.ids_mk]
        exact (ids_sublist_of_mem hu).trans (List.sublist_cons_self _ _)
      have h2 : u.ids.length ≤ st.arena.length := by
        refine nodup_lt_length_le u.ids st.arena.length (List.Nodup.sublist hsub hnd) ?_
        intro x hx
        exact hbound x (hsub.mem hx)
      omega
    have hlist : ∀ (us : List MT) (cs : List Nat), MirrorsChildren st.arena cs us →
        (∀ u ∈ us, u.depth ≤ st.arena.length) →
        (cs.map (nodeSumAux st.arena st.arena.length)).sum = MT.sumCList st.arena us := by
      intro us
      induction us with
      | nil =>
        intro cs hmc _
        cases cs with
        | nil => rfl
        | cons c cs2 => exact hmc.elim
      | cons u us2 ihl =>
        intro cs hmc hdl
        cases cs with
        | nil => exact hmc.elim
        | cons c cs2 =>
          obtain ⟨hmu, hrest2⟩ := hmc
          rw [List.map_cons, List.sum_cons, MT.sumCList_cons,
            nodeSumAux_eq_sumC st.arena st.arena.length u c hmu (hdl u (by simp)),
            ihl cs2 hrest2 (fun u1 hu1 => hdl u1 (by simp [hu1]))]
    rw [hlist ts nd.children hrest hfuel]
    omega

theorem mirrorsAt_rootId {a : Arena} {t : MT} {i : Nat} (hm : MirrorsAt a i t) :
    t.rootId = i := by
  cases t with
  | mk j ts =>
    obtain ⟨hij, _⟩ := hm
    rw [MT.rootId, hij]

/-- Updating a node without changing its kind or backing-store length
changes no contribution. -/
theorem contribAt_set_same (a : Arena) (d : Nat) (nd nd' : RNode)
    (hget : a.get? d = some nd) (hfile : nd'.isFile = nd.isFile)
    (hstore : nd'.store.length = nd.store.length) :
    ∀ x, contribAt (a.set d nd') x = contribAt a x := by
  intro x
  by_cases hx : x = d
  · rw [hx, contribAt, contribAt, hget,
      listGet?_set_self a d nd' (listGet?_some_lt hget)]
    dsimp only
    rw [nodeContrib, nodeContrib, hfile, hstore]
  · rw [contribAt, contribAt, listGet?_set_ne a d x nd' hx]

/-- Updating a node without changing its kind or child list is invisible to
the mirror relation. -/
theorem obsEq_set_same (a : Arena) (d : Nat) (nd nd' : RNode)
    (hget : a.get? d = some nd) (hfile : nd'.isFile = nd.isFile)
    (hchild : nd'.children = nd.children) :
    ∀ x, obsEq ((a.set d nd').get? x) (a.get? x) := by
  intro x
  by_cases hx : x = d
  · rw [hx, hget, listGet?_set_self a d nd' (listGet?_some_lt hget)]
    exact ⟨hfile, hchild⟩
  · rw [listGet?_set_ne a d x nd' hx]
    exact obsEq_refl _

theorem rootdir_set_same (a : Arena) (d : Nat) (nd nd' : RNode)
    (hget : a.get? d = some nd) (hfile : nd'.isFile = nd.isFile)
    (hroot : ∃ rnd, a.get? 0 = some rnd ∧ rnd.isFile = false) :
    ∃ rnd, (a.set d nd').get? 0 = some rnd ∧ rnd.isFile = false := by
  obtain ⟨rnd, hg0, hf0⟩ := hroot
  by_cases hx : (0 : Nat) = d
  · refine ⟨nd', ?_, ?_⟩
    · rw [hx]
      exact listGet?_set_self a d nd' (listGet?_some_lt hget)
    · rw [← hx, hg0] at hget
      rw [hfile, ← Option.some.inj hget]
      exact hf0
  · exact ⟨rnd, by rw [listGet?_set_ne a d 0 nd' hx]; exact hg0, hf0⟩

theorem sumC_congr (a a2 : Arena) (t : MT)
    (h : ∀ x ∈ t.ids, contribAt a2 x = contribAt a x) :
    MT.sumC a2 t = MT.sumC a t := by
  rw [MT.sumC_eq_ids, MT.sumC_eq_ids]
  exact sum_map_congr (contribAt a) (contribAt a2) t.ids h

theorem sum_map_perm {l1 l2 : List Nat} (f : Nat → Int) (h : l1.Perm l2) :
    (l1.map f).sum = (l2.map f).sum := (h.map f).sum_eq

/-- The per-state invariant of the ramfs usage accounting: some `Nodup`
mirror tree is rooted at the (directory-typed) root node, and the live sum
is bounded by `size` (up to the root's own uncharged contribution), which
in turn respects the quota. -/
def AInv (a : Arena) (size maxSize : Int) : Prop :=
  ∃ t, MirrorsAt a 0 t ∧ t.ids.Nodup ∧
    MT.sumC a t ≤ size + contribAt a 0 ∧ size ≤ maxSize ∧
    ∃ rnd, a.get? 0 = some rnd ∧ rnd.isFile = false

def RInv (st : RFS) : Prop := AInv st.arena st.size st.maxSize

/-- An arena change that preserves kinds and child lists and does not
increase any contribution preserves the invariant at unchanged size. -/
theorem AInv_obs_mono (a a2 : Arena) (s m : Int)
    (hobs : ∀ x, obsEq (a2.get? x) (a.get? x))
    (hcon : ∀ x, contribAt a2 x ≤ contribAt a x)
    (h : AInv a s m) : AInv a2 s m := by
  obtain ⟨t, hm, hnd, hsum, hsm, rnd, hg0, hf0⟩ := h
  have hr2 : ∃ rnd2, a2.get? 0 = some rnd2 ∧ rnd2.isFile = false := by
    have ho := hobs 0
    rw [hg0] at ho
    cases hg2 : a2.get? 0 with
    | none => rw [hg2] at ho; exact ho.elim
    | some rnd2 =>
      rw [hg2] at ho
      exact ⟨rnd2, rfl, by rw [ho.1]; exact hf0⟩
  refine ⟨t, mirrors_transport a a2 t 0 (fun x _ => hobs x) hm, hnd, ?_, hsm, hr2⟩
  have h1 : MT.sumC a2 t ≤ MT.sumC a t := by
    rw [MT.sumC_eq_ids, MT.sumC_eq_ids]
    exact List.sum_le_sum (fun i _ => hcon i)
  have h2 : contribAt a2 0 = contribAt a 0 := by
    obtain ⟨rnd2, hg2, hf2⟩ := hr2
    rw [contribAt, contribAt, hg0, hg2]
    dsimp only
    rw [nodeContrib, nodeContrib, hf0, hf2]
    simp
  omega

/-- Creating a fresh leaf node (file or empty directory) at the end of the
arena and linking it under a live directory preserves the invariant with
the size increased by the leaf's contribution. -/
theorem AInv_link_new (a : Arena) (s m add : Int) (name : PathName) (d : Nat)
    (base : PathName) (dnd nn : RNode)
    (hgd : goFindDir a name = (some d, base))
    (hget : a.get? d = some dnd) (hf : dnd.isFile = false)
    (hnnch : nn.children = [])
    (hcnn : nodeContrib nn = add)
    (hsm2 : s + add ≤ m)
    (h : AInv a s m) :
    AInv (linkChild (a ++ [nn]) d a.length) (s + add) m := by
  obtain ⟨t, hm, hnd, hsum, hsm, rnd, hg0, hf0⟩ := h
  have hdlt : d < a.length := listGet?_some_lt hget
  have h0lt : 0 < a.length := listGet?_some_lt hg0
  have hbound := mirrors_ids_lt a t 0 hm
  have hmb : MirrorsAt (a ++ [nn]) 0 t := by
    refine mirrors_transport a (a ++ [nn]) t 0 ?_ hm
    intro x hx
    rw [List.get?_append (hbound x hx)]
    exact obsEq_refl _
  have hgetb : (a ++ [nn]).get? d = some dnd := by
    rw [List.get?_append hdlt]
    exact hget
  have hlc : linkChild (a ++ [nn]) d a.length =
      (a ++ [nn]).set d { dnd with children := a.length :: dnd.children } := by
    rw [linkChild, hgetb]
  have hgetnid : ((a ++ [nn]).set d
      { dnd with children := a.length :: dnd.children }).get? a.length = some nn := by
    rw [listGet?_set_ne _ d a.length _ (by omega), List.get?_concat_length]
  have htc : MirrorsAt ((a ++ [nn]).set d
      { dnd with children := a.length :: dnd.children }) a.length (MT.mk a.length []) := by
    refine ⟨rfl, nn, hgetnid, ?_⟩
    by_cases hfn : nn.isFile
    · rw [if_pos hfn]
    · rw [if_neg hfn, hnnch]
      trivial
  have hdmem : d ∈ t.ids :=
    goFindDir_live a t hm (mirrorsAt_rootId hm) name d base hgd ⟨rnd, hg0, hf0⟩
  have hidstc : (MT.mk a.length ([] : List MT)).ids = [a.length] := rfl
  have hndapp : (t.ids ++ (MT.mk a.length ([] : List MT)).ids).Nodup := by
    rw [hidstc, List.nodup_append]
    refine ⟨hnd, List.nodup_singleton _, ?_⟩
    intro x hx hmem
    rw [List.mem_singleton] at hmem
    have := hbound x hx
    omega
  obtain ⟨t', hm', hperm⟩ :=
    mirrors_attach (a ++ [nn]) _ d a.length dnd (MT.mk a.length []) hgetb hf rfl htc
      t 0 hmb hndapp hdmem
  have hnd' : t'.ids.Nodup :=
    hperm.symm.nodup (List.perm_append_comm.nodup hndapp)
  have hcontrib : ∀ x, x < a.length →
      contribAt ((a ++ [nn]).set d { dnd with children := a.length :: dnd.children }) x
        = contribAt a x := by
    intro x hxlt
    rw [contribAt_set_same (a ++ [nn]) d dnd
        { dnd with children := a.length :: dnd.children } hgetb rfl rfl x,
      contribAt, contribAt, List.get?_append hxlt]
  have hcnid : contribAt ((a ++ [nn]).set d
      { dnd with children := a.length :: dnd.children }) a.length = nodeContrib nn := by
    rw [contribAt, hgetnid]
  rw [hlc]
  refine ⟨t', hm', hnd', ?_, hsm2, ?_⟩
  · rw [MT.sumC_eq_ids, sum_map_perm (contribAt _) hperm]
    simp only [hidstc, List.map_append, List.sum_append, List.map_cons, List.map_nil,
      List.sum_cons, List.sum_nil]
    have hS : (t.ids.map (contribAt ((a ++ [nn]).set d
        { dnd with children := a.length :: dnd.children }))).sum
        = (t.ids.map (contribAt a)).sum :=
      sum_map_congr _ _ _ (fun x hx => hcontrib x (hbound x hx))
    have hsum2 : (t.ids.map (contribAt a)).sum ≤ s + contribAt a 0 := by
      rw [← MT.sumC_eq_ids]
      exact hsum
    have hc0 : contribAt ((a ++ [nn]).set d
        { dnd with children := a.length :: dnd.children }) 0 = contribAt a 0 :=
      hcontrib 0 h0lt
    rw [hS, hcnid, hcnn, hc0]
    omega
  · refine rootdir_set_same (a ++ [nn]) d dnd
      { dnd with children := a.length :: dnd.children } hgetb rfl ?_
    exact ⟨rnd, by rw [List.get?_append h0lt]; exact hg0, hf0⟩

/-- Unlinking a child of a live directory preserves the invariant with the
size decreased by the unlinked node's own contribution (the rest of the
detached subtree stays charged, as in the source). -/
theorem AInv_unlink (a a1 : Arena) (s m : Int) (name : PathName) (d n : Nat)
    (base : PathName) (dnd : RNode)
    (hgd : goFindDir a name = (some d, base))
    (hget : a.get? d = some dnd) (hf : dnd.isFile = false)
    (hul : unlinkChild a d base = (some n, a1))
    (h : AInv a s m) :
    AInv a1 (s - contribAt a n) m := by
  obtain ⟨t, hm, hnd, hsum, hsm, rnd, hg0, hf0⟩ := h
  rw [unlinkChild, hget] at hul
  dsimp only at hul
  cases hfj : dnd.children.findIdx? (nameIs a base) with
  | none =>
    rw [hfj] at hul
    dsimp only at hul
    exact absurd (congrArg Prod.fst hul) (by simp)
  | some j =>
    rw [hfj] at hul
    dsimp only at hul
    obtain ⟨pre, c, post, hchx, hjlen, _, _⟩ := listFindIdx?_decomp (nameIs a base) _ j hfj
    have hgetj : dnd.children.get? j = some c := by
      rw [hchx, ← hjlen]
      exact listGet?_append_cons pre post c
    have hnc : n = c := by
      have h1 := congrArg Prod.fst hul
      dsimp only at h1
      rw [hgetj] at h1
      exact (Option.some.inj h1).symm
    have herase : dnd.children.eraseIdx j = pre ++ post := by
      rw [hchx, ← hjlen]
      exact listEraseIdx_append_cons pre post c
    have ha1 : a1 = a.set d { dnd with children := pre ++ post } := by
      have h2 := congrArg Prod.snd hul
      dsimp only at h2
      rw [herase] at h2
      exact h2.symm
    have hdmem : d ∈ t.ids :=
      goFindDir_live a t hm (mirrorsAt_rootId hm) name d base hgd ⟨rnd, hg0, hf0⟩
    obtain ⟨t', tcu, hm', htcu, hperm, hdt'⟩ :=
      mirrors_detach a a1 d c dnd pre post hget hf hchx ha1 t 0 hm hnd hdmem
    have hndsplit : (tcu.ids ++ t'.ids).Nodup := hperm.nodup hnd
    have hnd' : t'.ids.Nodup := (List.nodup_append.mp hndsplit).2.1
    have hcontrib : ∀ x, contribAt a1 x = contribAt a x := by
      intro x
      rw [ha1]
      exact contribAt_set_same a d dnd { dnd with children := pre ++ post } hget rfl rfl x
    refine ⟨t', hm', hnd', ?_, by have := contribAt_nonneg a n; omega, ?_⟩
    · have hS : MT.sumC a1 t' = (t'.ids.map (contribAt a)).sum := by
        rw [MT.sumC_eq_ids]
        exact sum_map_congr _ _ _ (fun x _ => hcontrib x)
      have hsplit : (t.ids.map (contribAt a)).sum
          = (tcu.ids.map (contribAt a)).sum + (t'.ids.map (contribAt a)).sum := by
        rw [sum_map_perm (contribAt a) hperm, List.map_append, List.sum_append]
      have hsum2 : (t.ids.map (contribAt a)).sum ≤ s + contribAt a 0 := by
        rw [← MT.sumC_eq_ids]
        exact hsum
      have hcmem : contribAt a n ≤ (tcu.ids.map (contribAt a)).sum := by
        refine List.single_le_sum (fun x hx => ?_) (contribAt a n) ?_
        · obtain ⟨i, _, hi⟩ := List.mem_map.mp hx
          rw [← hi]
          exact contribAt_nonneg a i
        · rw [hnc]
          exact List.mem_map_of_mem _ (mirrorsAt_root_mem htcu)
      have hc0 : contribAt a1 0 = contribAt a 0 := hcontrib 0
      rw [hS, hc0]
      omega
    · rw [ha1]
      exact rootdir_set_same a d dnd { dnd with children := pre ++ post } hget rfl
        ⟨rnd, hg0, hf0⟩

/-- A successful `unlink` splits the parent's child list around the removed
node and erases exactly that entry. -/
theorem unlink_success_decomp (a a1 : Arena) (d c : Nat) (base : PathName)
    (dnd : RNode) (hget : a.get? d = some dnd)
    (hul : unlinkChild a d base = (some c, a1)) :
    ∃ pre post, dnd.children = pre ++ c :: post ∧
      a1 = a.set d { dnd with children := pre ++ post } := by
  rw [unlinkChild, hget] at hul
  dsimp only at hul
  cases hfj : dnd.children.findIdx? (nameIs a base) with
  | none =>
    rw [hfj] at hul
    dsimp only at hul
    exact absurd (congrArg Prod.fst hul) (by simp)
  | some j =>
    rw [hfj] at hul
    dsimp only at hul
    obtain ⟨pre, c0, post, hchx, hjlen, _, _⟩ := listFindIdx?_decomp (nameIs a base) _ j hfj
    have hgetj : dnd.children.get? j = some c0 := by
      rw [hchx, ← hjlen]
      exact listGet?_append_cons pre post c0
    have hc0c : c0 = c := by
      have h1 := congrArg Prod.fst hul
      dsimp only at h1
      rw [hgetj] at h1
      exact Option.some.inj h1
    have herase : dnd.children.eraseIdx j = pre ++ post := by
      rw [hchx, ← hjlen]
      exact listEraseIdx_append_cons pre post c0
    refine ⟨pre, post, by rw [hchx, hc0c], ?_⟩
    have h2 := congrArg Prod.snd hul
    dsimp only at h2
    rw [herase] at h2
    exact h2.symm

/-- Re-linking an unlinked node into its old parent restores the invariant
at unchanged size: the compensating action of a failed `Rename`. -/
theorem AInv_relink (a a1 : Arena) (s m : Int) (oldname : PathName) (od c : Nat)
    (obase : PathName) (odnd : RNode)
    (hgd : goFindDir a oldname = (some od, obase))
    (hget : a.get? od = some odnd) (hf : odnd.isFile = false)
    (hul : unlinkChild a od obase = (some c, a1))
    (h : AInv a s m) :
    AInv (linkChild a1 od c) s m := by
  obtain ⟨t, hm, hnd, hsum, hsm, rnd, hg0, hf0⟩ := h
  obtain ⟨pre, post, hchx, ha1⟩ := unlink_success_decomp a a1 od c obase odnd hget hul
  have hdmem : od ∈ t.ids :=
    goFindDir_live a t hm (mirrorsAt_rootId hm) oldname od obase hgd ⟨rnd, hg0, hf0⟩
  obtain ⟨t', tcu, hm', htcu, hperm, hdt'⟩ :=
    mirrors_detach a a1 od c odnd pre post hget hf hchx ha1 t 0 hm hnd hdmem
  have hndsplit : (tcu.ids ++ t'.ids).Nodup := hperm.nodup hnd
  have hodlt : od < a.length := listGet?_some_lt hget
  have hget1 : a1.get? od = some { odnd with children := pre ++ post } := by
    rw [ha1]
    exact listGet?_set_self a od _ hodlt
  have hlc : linkChild a1 od c = a1.set od
      { odnd with children := c :: (pre ++ post) } := by
    rw [linkChild, hget1]
  have hodnotintcu : od ∉ tcu.ids :=
    fun hx => (List.nodup_append.mp hndsplit).2.2 hx hdt'
  have htc3 : MirrorsAt (a1.set od { odnd with children := c :: (pre ++ post) }) c tcu := by
    refine mirrors_transport a1 _ tcu c ?_ htcu
    intro x hx
    have hxd : x ≠ od := fun he => hodnotintcu (he ▸ hx)
    rw [listGet?_set_ne a1 od x _ hxd]
    exact obsEq_refl _
  have hndapp2 : (t'.ids ++ tcu.ids).Nodup := List.perm_append_comm.nodup hndsplit
  obtain ⟨t2, hm2, hperm2⟩ :=
    mirrors_attach a1 _ od c { odnd with children := pre ++ post } tcu hget1 hf rfl htc3
      t' 0 hm' hndapp2 hdt'
  have hnd2 : t2.ids.Nodup := hperm2.symm.nodup hndsplit
  have hcontrib1 : ∀ x, contribAt a1 x = contribAt a x := by
    intro x
    rw [ha1]
    exact contribAt_set_same a od odnd { odnd with children := pre ++ post } hget rfl rfl x
  have hcontrib2 : ∀ x, contribAt (a1.set od { odnd with children := c :: (pre ++ post) }) x
      = contribAt a x := by
    intro x
    rw [contribAt_set_same a1 od { odnd with children := pre ++ post }
      { odnd with children := c :: (pre ++ post) } hget1 rfl rfl x]
    exact hcontrib1 x
  rw [hlc]
  refine ⟨t2, hm2, hnd2, ?_, hsm, ?_⟩
  · have hS : MT.sumC (a1.set od { odnd with children := c :: (pre ++ post) }) t2
        = (t.ids.map (contribAt a)).sum := by
      rw [MT.sumC_eq_ids, sum_map_congr _ _ _ (fun x _ => hcontrib2 x)]
      exact sum_map_perm (contribAt a) (hperm2.trans hperm.symm)
    have hsum2 : (t.ids.map (contribAt a)).sum ≤ s + contribAt a 0 := by
      rw [← MT.sumC_eq_ids]
      exact hsum
    rw [hS, hcontrib2 0]
    omega
  · refine rootdir_set_same a1 od { odnd with children := pre ++ post }
      { odnd with children := c :: (pre ++ post) } hget1 rfl ?_
    rw [ha1]
    exact rootdir_set_same a od odnd { odnd with children := pre ++ post } hget rfl
      ⟨rnd, hg0, hf0⟩

/-- A successful `Rename` (unlink, rename the node, link under the new
parent) preserves the invariant at unchanged size. -/
theorem AInv_rename_move (a a1 : Arena) (s m : Int) (oldname newname : PathName)
    (od c np : Nat) (obase nbase : PathName) (odnd npnd cnd : RNode)
    (hgd : goFindDir a oldname = (some od, obase))
    (hget : a.get? od = some odnd) (hf : odnd.isFile = false)
    (hul : unlinkChild a od obase = (some c, a1))
    (hgd2 : goFindDir a1 newname = (some np, nbase))
    (hgetnp : a1.get? np = some npnd) (hfnp : npnd.isFile = false)
    (hgetc : a1.get? c = some cnd)
    (h : AInv a s m) :
    AInv (linkChild (a1.set c { cnd with name := nbase }) np c) s m := by
  obtain ⟨t, hm, hnd, hsum, hsm, rnd, hg0, hf0⟩ := h
  obtain ⟨pre, post, hchx, ha1⟩ := unlink_success_decomp a a1 od c obase odnd hget hul
  have hdmem : od ∈ t.ids :=
    goFindDir_live a t hm (mirrorsAt_rootId hm) oldname od obase hgd ⟨rnd, hg0, hf0⟩
  obtain ⟨t', tcu, hm', htcu, hperm, hdt'⟩ :=
    mirrors_detach a a1 od c odnd pre post hget hf hchx ha1 t 0 hm hnd hdmem
  have hndsplit : (tcu.ids ++ t'.ids).Nodup := hperm.nodup hnd
  have hroot1 : ∃ rnd1, a1.get? 0 = some rnd1 ∧ rnd1.isFile = false := by
    rw [ha1]
    exact rootdir_set_same a od odnd { odnd with children := pre ++ post } hget rfl
      ⟨rnd, hg0, hf0⟩
  have hnpmem : np ∈ t'.ids :=
    goFindDir_live a1 t' hm' (mirrorsAt_rootId hm') newname np nbase hgd2 hroot1
  have hcmem : c ∈ tcu.ids := mirrorsAt_root_mem htcu
  have hdisj : ∀ x ∈ tcu.ids, x ∉ t'.ids := (List.nodup_append.mp hndsplit).2.2
  have hcnp : c ≠ np := fun he => hdisj c hcmem (he ▸ hnpmem)
  have hobs2 : ∀ x, obsEq ((a1.set c { cnd with name := nbase }).get? x) (a1.get? x) :=
    obsEq_set_same a1 c cnd { cnd with name := nbase } hgetc rfl rfl
  have hm2' : MirrorsAt (a1.set c { cnd with name := nbase }) 0 t' :=
    mirrors_transport a1 _ t' 0 (fun x _ => hobs2 x) hm'
  have htcu2 : MirrorsAt (a1.set c { cnd with name := nbase }) c tcu :=
    mirrors_transport a1 _ tcu c (fun x _ => hobs2 x) htcu
  have hgetnp2 : (a1.set c { cnd with name := nbase }).get? np = some npnd := by
    rw [listGet?_set_ne a1 c np _ (Ne.symm hcnp)]
    exact hgetnp
  have hlc : linkChild (a1.set c { cnd with name := nbase }) np c
      = (a1.set c { cnd with name := nbase }).set np
        { npnd with children := c :: npnd.children } := by
    rw [linkChild, hgetnp2]
  have hnpnotintcu : np ∉ tcu.ids := fun hx => hdisj np hx hnpmem
  have htc3 : MirrorsAt ((a1.set c { cnd with name := nbase }).set np
      { npnd with children := c :: npnd.children }) c tcu := by
    refine mirrors_transport _ _ tcu c ?_ htcu2
    intro x hx
    have hxnp : x ≠ np := fun he => hnpnotintcu (he ▸ hx)
    rw [listGet?_set_ne _ np x _ hxnp]
    exact obsEq_refl _
  have hndapp2 : (t'.ids ++ tcu.ids).Nodup := List.perm_append_comm.nodup hndsplit
  obtain ⟨t2, hm2, hperm2⟩ :=
    mirrors_attach (a1.set c { cnd with name := nbase }) _ np c npnd tcu hgetnp2 hfnp
      rfl htc3 t' 0 hm2' hndapp2 hnpmem
  have hnd2 : t2.ids.Nodup := hperm2.symm.nodup hndsplit
  have hcontrib1 : ∀ x, contribAt a1 x = contribAt a x := by
    intro x
    rw [ha1]
    exact contribAt_set_same a od odnd { odnd with children := pre ++ post } hget rfl rfl x
  have hcontrib2 : ∀ x, contribAt (a1.set c { cnd with name := nbase }) x
      = contribAt a x := by
    intro x
    rw [contribAt_set_same a1 c cnd { cnd with name := nbase } hgetc rfl rfl x]
    exact hcontrib1 x
  have hcontrib3 : ∀ x, contribAt ((a1.set c { cnd with name := nbase }).set np
      { npnd with children := c :: npnd.children }) x = contribAt a x := by
    intro x
    rw [contribAt_set_same _ np npnd { npnd with children := c :: npnd.children }
      hgetnp2 rfl rfl x]
    exact hcontrib2 x
  rw [hlc]
  refine ⟨t2, hm2, hnd2, ?_, hsm, ?_⟩
  · have hS : MT.sumC ((a1.set c { cnd with name := nbase }).set np
        { npnd with children := c :: npnd.children }) t2
        = (t.ids.map (contribAt a)).sum := by
      rw [MT.sumC_eq_ids, sum_map_congr _ _ _ (fun x _ => hcontrib3 x)]
      exact sum_map_perm (contribAt a) (hperm2.trans hperm.symm)
    have hsum2 : (t.ids.map (contribAt a)).sum ≤ s + contribAt a 0 := by
      rw [← MT.sumC_eq_ids]
      exact hsum
    rw [hS, hcontrib3 0]
    omega
  · refine rootdir_set_same _ np npnd { npnd with children := c :: npnd.children }
      hgetnp2 rfl ?_
    exact rootdir_set_same a1 c cnd { cnd with name := nbase } hgetc rfl hroot1

/-- Updating a file node in place (possibly growing its backing store) with
the size charged by at least the capacity growth preserves the invariant.
The node need not be live: a write through a handle whose node was removed
increases `size` without touching the live sum. -/
theorem AInv_write_node (a : Arena) (s m add : Int) (nid : Nat) (nd nd' : RNode)
    (hget : a.get? nid = some nd) (hfi : nd.isFile = true)
    (hfi' : nd'.isFile = true) (hch : nd'.children = nd.children)
    (hadd : (nd'.store.length : Int) - (nd.store.length : Int) ≤ add)
    (h0 : 0 ≤ add) (hsm2 : s + add ≤ m)
    (h : AInv a s m) : AInv (a.set nid nd') (s + add) m := by
  obtain ⟨t, hm, hnd, hsum, hsm, rnd, hg0, hf0⟩ := h
  have hnid0 : nid ≠ 0 := by
    intro he
    rw [he, hg0] at hget
    rw [← Option.some.inj hget] at hfi
    rw [hf0] at hfi
    exact Bool.noConfusion hfi
  have hobs : ∀ x, obsEq ((a.set nid nd').get? x) (a.get? x) :=
    obsEq_set_same a nid nd nd' hget (by rw [hfi, hfi']) hch
  have hm' := mirrors_transport a _ t 0 (fun x _ => hobs x) hm
  have hcontrib_ne : ∀ x, x ≠ nid → contribAt (a.set nid nd') x = contribAt a x :=
    fun x hx => by rw [contribAt, contribAt, listGet?_set_ne a nid x nd' hx]
  have hcnid : contribAt (a.set nid nd') nid
      = (emptyFileSize : Int) + nd'.store.length := by
    rw [contribAt, listGet?_set_self a nid nd' (listGet?_some_lt hget)]
    dsimp only
    rw [nodeContrib, hfi']
    simp
  have hcnidold : contribAt a nid = (emptyFileSize : Int) + nd.store.length := by
    rw [contribAt, hget]
    dsimp only
    rw [nodeContrib, hfi]
    simp
  have hc0 : contribAt (a.set nid nd') 0 = contribAt a 0 :=
    hcontrib_ne 0 (fun he => hnid0 he.symm)
  refine ⟨t, hm', hnd, ?_, hsm2, ?_⟩
  · rw [MT.sumC_eq_ids]
    have hsum2 : (t.ids.map (contribAt a)).sum ≤ s + contribAt a 0 := by
      rw [← MT.sumC_eq_ids]
      exact hsum
    by_cases hmem : nid ∈ t.ids
    · rw [sum_map_update (contribAt a) (contribAt (a.set nid nd')) t.ids hnd nid hmem
        (fun x _ hx => hcontrib_ne x hx), hc0, hcnid, hcnidold]
      omega
    · rw [sum_map_congr _ _ _ (fun x hx => hcontrib_ne x (fun he => hmem (he ▸ hx))), hc0]
      omega
  · exact ⟨rnd, by rw [listGet?_set_ne a nid 0 nd' (fun he => hnid0 he.symm)]; exact hg0,
      hf0⟩

theorem closeOp_inv (st : RFS) (h : Nat) (hinv : RInv st) : RInv (closeOp st h).2 := by
  rw [closeOp]
  cases hh : st.handles.get? h with
  | none => exact hinv
  | some hd =>
    dsimp only
    by_cases hdir : hd.isDir
    · rw [if_pos hdir]
      exact hinv
    · rw [if_neg hdir]
      cases hd.node with
      | none => exact hinv
      | some nid => exact hinv

theorem mkdirOp_inv (st : RFS) (name : PathName) (hinv : RInv st) :
    RInv (mkdirOp st name).2 := by
  rw [mkdirOp]
  split
  · exact hinv
  · split
    · exact hinv
    · split
      · exact hinv
      · rename_i d base hgd
        split
        · exact hinv
        · rename_i dnd hget
          split
          · exact hinv
          · split
            · exact hinv
            · rename_i hfi hguard
              dsimp only
              exact AInv_link_new st.arena st.size st.maxSize (dirSize : Int) name d base
                dnd { isFile := false, name := base, store := [], len := 0, children := [] }
                hgd hget (by simpa using hfi) rfl (by rw [nodeContrib]; simp)
                (by omega) hinv

theorem removeOp_inv (st : RFS) (name : PathName) (hinv : RInv st) :
    RInv (removeOp st name).2 := by
  rw [removeOp]
  split
  · exact hinv
  · split
    · exact hinv
    · split
      · exact hinv
      · rename_i d base hgd
        split
        · exact hinv
        · rename_i dnd hget
          split
          · exact hinv
          · rename_i hfi
            split
            · exact hinv
            · rename_i n a1 hul
              dsimp only
              exact AInv_unlink st.arena a1 st.size st.maxSize name d n base dnd hgd hget
                (by simpa using hfi) hul hinv

theorem renameOp_inv (st : RFS) (oldname newname : PathName) (hinv : RInv st) :
    RInv (renameOp st oldname newname).2 := by
  rw [renameOp]
  split
  · exact hinv
  · rename_i od obase hgd
    split
    · exact hinv
    · rename_i odnd hget
      split
      · exact hinv
      · rename_i hfi
        split
        · exact hinv
        · rename_i c a1 hul
          have hrel : RInv { st with arena := linkChild a1 od c } :=
            AInv_relink st.arena a1 st.size st.maxSize oldname od c obase odnd hgd hget
              (by simpa using hfi) hul hinv
          split
          · exact hrel
          · rename_i np nbase hgd2
            split
            · exact hrel
            · rename_i npnd hgetnp
              split
              · exact hrel
              · rename_i hfnp
                split
                · exact hrel
                · rename_i cnd hgetc
                  dsimp only
                  exact AInv_rename_move st.arena a1 st.size st.maxSize oldname newname
                    od c np obase nbase odnd npnd cnd hgd hget (by simpa using hfi) hul
                    hgd2 hgetnp (by simpa using hfnp) hgetc hinv

/-- A successful locked write charges `size` by at least the backing-store
growth, never decreases `size`, and respects the quota. -/
theorem fileWriteData_bounds (store : List Nat) (len pos : Nat) (p : List Nat)
    (size maxSize : Int) (store1 : List Nat) (len1 pos1 : Nat) (size1 : Int)
    (hok : fileWriteData store len pos p size maxSize = .ok (store1, len1, pos1, size1)) :
    (store1.length : Int) - store.length ≤ size1 - size ∧ size ≤ size1 ∧
      (size ≤ maxSize → size1 ≤ maxSize) := by
  by_cases hgrow : pos + p.length > store.length
  · rw [fileWriteData] at hok
    simp only [if_pos hgrow] at hok
    generalize hRU : (if store.length < 64 then (15 : Nat)
      else if store.length < 256 then 31 else 63) = RU at hok
    split at hok
    · exact absurd hok (by simp)
    · rename_i hquota
      injection hok with hok
      rw [Prod.mk.injEq, Prod.mk.injEq, Prod.mk.injEq] at hok
      obtain ⟨hs, hl, hpz, hz⟩ := hok
      have hb : 0 < RU + 1 := by omega
      have hdm := Nat.div_add_mod (pos + p.length + RU) (RU + 1)
      have hmlt : (pos + p.length + RU) % (RU + 1) < RU + 1 := Nat.mod_lt _ hb
      have hnc : pos + p.length ≤ ((pos + p.length + RU) / (RU + 1)) * (RU + 1) := by
        rw [Nat.mul_comm]
        omega
      have hlen1 : store1.length ≤ ((pos + p.length + RU) / (RU + 1)) * (RU + 1) := by
        rw [← hs]
        simp only [List.length_append, List.length_take, List.length_replicate]
        omega
      have hge : (store.length : Int)
          ≤ (((pos + p.length + RU) / (RU + 1)) * (RU + 1) : Nat) := by
        have : store.length ≤ ((pos + p.length + RU) / (RU + 1)) * (RU + 1) := by omega
        exact_mod_cast this
      refine ⟨?_, ?_, ?_⟩
      · have h1 : (store1.length : Int)
            ≤ (((pos + p.length + RU) / (RU + 1)) * (RU + 1) : Nat) := by
          exact_mod_cast hlen1
        omega
      · omega
      · intro _
        omega
  · rw [fileWriteData] at hok
    simp only [if_neg hgrow] at hok
    injection hok with hok
    rw [Prod.mk.injEq, Prod.mk.injEq, Prod.mk.injEq] at hok
    obtain ⟨hs, hl, hpz, hz⟩ := hok
    have hlen1 : store1.length ≤ store.length := by
      rw [← hs]
      simp only [List.length_append, List.length_take, List.length_drop]
      omega
    have h1 : (store1.length : Int) ≤ (store.length : Int) := by exact_mod_cast hlen1
    refine ⟨by omega, by omega, fun h2 => by omega⟩

theorem writeOp_inv (st : RFS) (h : Nat) (p : List Nat) (hinv : RInv st) :
    RInv (writeOp st h p).2 := by
  rw [writeOp]
  split
  · exact hinv
  · rename_i hd hh
    split
    · exact hinv
    · split
      · exact hinv
      · rename_i nid hnode
        split
        · exact hinv
        · rename_i nd hget
          split
          · exact hinv
          · rename_i hfi
            split
            · exact hinv
            · rename_i store1 len1 pos1 size1 hok
              dsimp only
              have hb := fileWriteData_bounds nd.store nd.len hd.pos p st.size
                st.maxSize store1 len1 pos1 size1 hok
              have hsm : st.size ≤ st.maxSize := by
                obtain ⟨t, _, _, _, hsm, _⟩ := hinv
                exact hsm
              have he : st.size + (size1 - st.size) = size1 := by ring
              rw [show (RInv { st with
                  arena := st.arena.set nid { nd with store := store1, len := len1 },
                  size := size1,
                  handles := st.handles.set h { hd with pos := pos1 } })
                = AInv (st.arena.set nid { nd with store := store1, len := len1 })
                    size1 st.maxSize from rfl, ← he]
              exact AInv_write_node st.arena st.size st.maxSize (size1 - st.size) nid nd
                { nd with store := store1, len := len1 } hget (by simpa using hfi)
                (by simpa using hfi) rfl (by dsimp only; omega) (by omega) (by omega) hinv

theorem openOp_inv (st : RFS) (name : PathName) (flag : Nat) (hinv : RInv st) :
    RInv (openOp st name flag).2 := by
  rw [openOp]
  split
  · exact hinv
  · split
    · split
      · exact hinv
      · split
        · exact hinv
        · exact hinv
    · split
      · rename_i n hfind
        split
        · exact hinv
        · rename_i nd hget
          split
          · split
            · -- O_TRUNC: the backing store is discarded in place
              dsimp only [pushHandle]
              have hcon : ∀ x,
                  contribAt (st.arena.set n { nd with store := [], len := 0 }) x
                    ≤ contribAt st.arena x := by
                intro x
                by_cases hx : x = n
                · rw [hx, contribAt, contribAt, hget,
                    listGet?_set_self st.arena n _ (listGet?_some_lt hget)]
                  dsimp only
                  rw [nodeContrib, nodeContrib]
                  dsimp only
                  by_cases hfn : nd.isFile
                  · rw [if_pos hfn, if_pos hfn]
                    simp
                  · rw [if_neg hfn, if_neg hfn]
                · rw [contribAt, contribAt, listGet?_set_ne st.arena n x _ hx]
              exact AInv_obs_mono st.arena _ st.size st.maxSize
                (obsEq_set_same st.arena n nd { nd with store := [], len := 0 } hget
                  rfl rfl) hcon hinv
            · exact hinv
          · exact hinv
      · split
        · exact hinv
        · split
          · exact hinv
          · rename_i d base hgd
            split
            · exact hinv
            · rename_i dnd hget
              split
              · exact hinv
              · rename_i hfi
                split
                · split
                  · exact hinv
                  · rename_i hquota
                    dsimp only [pushHandle]
                    exact AInv_link_new st.arena st.size st.maxSize (emptyFileSize : Int)
                      name d base dnd
                      { isFile := true, name := base, store := [], len := 0, children := [] }
                      hgd hget (by simpa using hfi) rfl (by rw [nodeContrib]; simp)
                      (by omega) hinv
                · split
                  · split
                    · exact hinv
                    · exact hinv
                  · exact hinv

theorem sumCList_nonneg (a : Arena) (us : List MT) : 0 ≤ MT.sumCList a us := by
  rw [sumCList_eq_ids]
  refine List.sum_nonneg ?_
  intro x hx
  obtain ⟨i, _, hi⟩ := List.mem_map.mp hx
  rw [← hi]
  exact contribAt_nonneg a i

theorem initRFS_inv (maxSize : Int) (hms : 0 ≤ maxSize) : RInv (initRFS maxSize) := by
  refine ⟨MT.mk 0 [], ⟨rfl,
    { isFile := false, name := ['.'], store := [], len := 0, children := [] },
    rfl, ?_⟩, by decide, ?_, hms, ?_⟩
  · trivial
  · have h1 : MT.sumC (initRFS maxSize).arena (MT.mk 0 []) =
        contribAt (initRFS maxSize).arena 0 + MT.sumCList (initRFS maxSize).arena [] := rfl
    have h2 : MT.sumCList (initRFS maxSize).arena [] = 0 := rfl
    rw [h1, h2]
    have h3 : (initRFS maxSize).size = 0 := rfl
    omega
  · exact ⟨{ isFile := false, name := ['.'], store := [], len := 0, children := [] },
      rfl, rfl⟩

theorem stepOp_inv (st : RFS) (op : ROp) (hinv : RInv st) : RInv (stepOp st op) := by
  cases op with
  | openf name flag => exact openOp_inv st name flag hinv
  | write h p => exact writeOp_inv st h p hinv
  | mkdir name => exact mkdirOp_inv st name hinv
  | remove name => exact removeOp_inv st name hinv
  | rename o n => exact renameOp_inv st o n hinv
  | close h => exact closeOp_inv st h hinv

theorem runOps_inv : ∀ (ops : List ROp) (st : RFS), RInv st → RInv (runOps st ops) := by
  intro ops
  induction ops with
  | nil => intro st h; exact h
  | cons op ops2 ih =>
    intro st h
    exact ih (stepOp st op) (stepOp_inv st op h)

/-- The invariant yields the amended usage bounds at any quiescent state. -/
theorem RInv_usage_bounds (st : RFS) (h : RInv st) :
    0 ≤ liveBytes st ∧ liveBytes st ≤ st.size ∧ st.size ≤ st.maxSize := by
  obtain ⟨t, hm, hnd, hsum, hsm, rnd, hg0, hf0⟩ := h
  have hb := liveBytes_eq st t hm hnd ⟨rnd, hg0, hf0⟩
  have h1 : 0 ≤ MT.sumC st.arena t - contribAt st.arena 0 := by
    cases t with
    | mk j ts =>
      obtain ⟨hij, _⟩ := hm
      rw [MT.sumC_mk, ← hij]
      have := sumCList_nonneg st.arena ts
      omega
  exact ⟨by omega, by omega, hsm⟩

/-- C1 (corrected): for every sequence of ramfs operations run from a fresh
file system with a non-negative quota, at every quiescent point
`Usage().used_bytes` lies in `[0, max_bytes]` and is bounded below by the
sum of per-live-node contributions (`EMPTY_FILE_SIZE + cap` for files,
`DIR_SIZE` for directories, over all live non-root nodes).  The claimed
equality does not hold (see the counterexample): `O_TRUNC` discards
capacity without refunding `size`, and writes through handles to unlinked
nodes charge `size` without being live. -/
theorem ramfs_usage_invariant (maxSize : Int) (ops : List ROp) (hms : 0 ≤ maxSize) :
    0 ≤ liveBytes (runOps (initRFS maxSize) ops) ∧
    liveBytes (runOps (initRFS maxSize) ops)
      ≤ (rfsUsage (runOps (initRFS maxSize) ops)).2.2.1 ∧
    (rfsUsage (runOps (initRFS maxSize) ops)).2.2.1
      ≤ (rfsUsage (runOps (initRFS maxSize) ops)).2.2.2 := by
  have h := RInv_usage_bounds _ (runOps_inv ops _ (initRFS_inv maxSize hms))
  have h1 : (rfsUsage (runOps (initRFS maxSize) ops)).2.2.1
      = (runOps (initRFS maxSize) ops).size := rfl
  have h2 : (rfsUsage (runOps (initRFS maxSize) ops)).2.2.2
      = (runOps (initRFS maxSize) ops).maxSize := rfl
  rw [h1, h2]
  exact h

/-- Witness for C1 at a concrete trace (create, write one byte, truncate). -/
theorem ramfs_usage_invariant_witness :
    (0 : Int) ≤ 1024 ∧
    (0 ≤ liveBytes (runOps (initRFS 1024) [ROp.openf ['a'] (O_CREAT ||| O_WRONLY),
        ROp.write 0 [65], ROp.openf ['a'] O_TRUNC]) ∧
      liveBytes (runOps (initRFS 1024) [ROp.openf ['a'] (O_CREAT ||| O_WRONLY),
        ROp.write 0 [65], ROp.openf ['a'] O_TRUNC])
        ≤ (rfsUsage (runOps (initRFS 1024) [ROp.openf ['a'] (O_CREAT ||| O_WRONLY),
          ROp.write 0 [65], ROp.openf ['a'] O_TRUNC])).2.2.1 ∧
      (rfsUsage (runOps (initRFS 1024) [ROp.openf ['a'] (O_CREAT ||| O_WRONLY),
        ROp.write 0 [65], ROp.openf ['a'] O_TRUNC])).2.2.1
        ≤ (rfsUsage (runOps (initRFS 1024) [ROp.openf ['a'] (O_CREAT ||| O_WRONLY),
          ROp.write 0 [65], ROp.openf ['a'] O_TRUNC])).2.2.2) :=
  ⟨by decide, ramfs_usage_invariant 1024 [ROp.openf ['a'] (O_CREAT ||| O_WRONLY),
    ROp.write 0 [65], ROp.openf ['a'] O_TRUNC] (by decide)⟩

/-- Counterexample to C1 as stated: after `Open("a", O_CREAT|O_WRONLY)`,
`Write([65])` (the store grows to capacity 16, `size = 104 + 16 = 120`) and
`Open("a", O_TRUNC)` (the store is discarded in place), `used_bytes` is
still `120` while the per-live-node sum is `104`: the claimed equality
fails at this quiescent point. -/
theorem ramfs_usage_sum_counterexample :
    (rfsUsage (runOps (initRFS 1024) [ROp.openf ['a'] (O_CREAT ||| O_WRONLY),
      ROp.write 0 [65], ROp.openf ['a'] O_TRUNC])).2.2.1 = 120 ∧
    liveBytes (runOps (initRFS 1024) [ROp.openf ['a'] (O_CREAT ||| O_WRONLY),
      ROp.write 0 [65], ROp.openf ['a'] O_TRUNC]) = 104 ∧
    (120 : Int) ≠ 104 := ⟨rfl, rfl, by decide⟩

/-! ### termfs cooked-mode line editor (readline.go lines 18-207, C2)

The editor state mirrors the `FS` fields touched by `readLine`: `line` is a
fixed-capacity buffer modelled as its backing store (`store`, whose length
is `cap(line)`) plus the slice length `len`; `rpos` and the `eof` flag bit
are carried as-is.  The cursor `x` is the loop-local variable of
`readLine`.  The byte reader is the explicit `input` list (an exhausted
input models a reader error, returning at an arbitrary prefix point), and
echo output is modelled as always accepted by the underlying writer (echo
never changes the editor state). -/

structure EdSt where
  store : List Nat
  len : Nat
  rpos : Int
  eofF : Bool
  deriving DecidableEq, Repr

/-- `line = line[:m+1]; copy(line[x+1:], line[x:]); line[x] = c` — insert
`c` at cursor `x` into a line of length `m`. -/
def insertByte (store : List Nat) (m x c : Nat) : List Nat :=
  store.take x ++ [c] ++ (store.drop x).take (m - x) ++ store.drop (m + 1)

/-- `x--; m--; copy(line[x:], line[x+1:]); line[m] = 0; line = line[:m]` —
delete the byte left of cursor `x` (`x ≥ 1`) from a line of length `m`. -/
def deleteByte (store : List Nat) (m x : Nat) : List Nat :=
  store.take (x - 1) ++ (store.drop x).take (m - x) ++ [0] ++ store.drop m

/-- Outcome of the `readLine` editing loop: loop exit with `rpos ≥ 0`, a
reader error (input exhausted mid-line), the `errLineTooLong` return, or
the `ECANCELED` return (^C).  Each carries the editor state and cursor at
the return point. -/
inductive RLOut where
  | done (st : EdSt) (x : Nat)
  | readErr (st : EdSt) (x : Nat)
  | tooLong (st : EdSt) (x : Nat)
  | canceled (st : EdSt) (x : Nat)
  deriving DecidableEq, Repr

/-- The `for x := 0; f.fs.rpos < 0;` editing loop of `readLine`
(readline.go lines 23-199), one input byte per iteration (escape sequences
consume up to three). -/
def editLoop (flags : Nat) : List Nat → EdSt → Nat → RLOut
  | input, st, x =>
    if 0 ≤ st.rpos then .done st x
    else if st.len = st.store.length then .tooLong st x
    else
      match input with
      | [] => .readErr st x
      | c :: rest =>
        if c = 13 ∧ flags &&& InCRLF = 0 then editLoop flags rest st x
        else if c = 13 ∨ c = 10 then
          editLoop flags rest
            { st with store := insertByte st.store st.len st.len 10,
                      len := st.len + 1, rpos := 0 } (st.len + 1)
        else if c = 127 ∨ c = 8 then
          if x = 0 then editLoop flags rest st x
          else editLoop flags rest
            { st with store := deleteByte st.store st.len x, len := st.len - 1 } (x - 1)
        else if c = 27 then
          match rest with
          | [] => .readErr st x
          | c2 :: rest2 =>
            if c2 ≠ 91 then editLoop flags rest2 st x
            else
              match rest2 with
              | [] => .readErr st x
              | c3 :: rest3 =>
                if c3 = 67 then
                  if x = st.len then editLoop flags rest3 st x
                  else editLoop flags rest3 st (x + 1)
                else if c3 = 68 then
                  if x = 0 then editLoop flags rest3 st x
                  else editLoop flags rest3 st (x - 1)
                else if c3 = 72 then
                  if x = 0 then editLoop flags rest3 st x
                  else editLoop flags rest3 st 0
                else if c3 = 70 then
                  if st.len - x = 0 then editLoop flags rest3 st x
                  else editLoop flags rest3 st st.len
                else if c3 = 65 then
                  if st.len ≠ 0 then editLoop flags rest3 st x
                  else
                    match st.store.findIdx? (fun b => b < 32) with
                    | none => editLoop flags rest3 st x
                    | some i =>
                      if i = 0 then editLoop flags rest3 st x
                      else editLoop flags rest3 { st with len := i } i
                else if c3 = 66 then
                  if st.len = 0 then editLoop flags rest3 st x
                  else editLoop flags rest3
                    { st with store := if st.len ≠ st.store.length
                        then st.store.set st.len 0 else st.store, len := 0 } 0
                else editLoop flags rest3 st x
        else if c = 3 then .canceled { st with len := 0 } x
        else if c = 4 then
          editLoop flags rest { st with rpos := 0, eofF := true } st.len
        else if c < 32 ∨ 254 ≤ c then editLoop flags rest st x
        else editLoop flags rest
          { st with store := insertByte st.store st.len x c, len := st.len + 1 } (x + 1)

/-- `n = copy(p, f.fs.line[f.fs.rpos:]); f.fs.rpos += n; if f.fs.rpos ==
len(f.fs.line) { f.fs.rpos = -1; f.fs.line = f.fs.line[:0] }`
(readline.go lines 200-206). -/
def deliver (st : EdSt) (pLen : Nat) : Nat × EdSt :=
  if st.rpos + ((min pLen (st.len - st.rpos.toNat) : Nat) : Int) = (st.len : Int) then
    (min pLen (st.len - st.rpos.toNat), { st with rpos := -1, len := 0 })
  else
    (min pLen (st.len - st.rpos.toNat),
     { st with rpos := st.rpos + ((min pLen (st.len - st.rpos.toNat) : Nat) : Int) })

/-- Result of one `readLine` call. -/
inductive RLRes where
  | ok (n : Nat) (st : EdSt)
  | eofR (st : EdSt)
  | readErrR (st : EdSt) (x : Nat)
  | tooLongR (st : EdSt) (x : Nat)
  | canceledR (st : EdSt) (x : Nat)
  deriving DecidableEq, Repr

/-- `readLine` (readline.go lines 18-207): pending-EOF check, editing loop
from cursor `0`, then delivery of the finished line. -/
def readLineM (flags : Nat) (input : List Nat) (pLen : Nat) (st : EdSt) : RLRes :=
  if st.rpos < 0 ∧ st.eofF then .eofR { st with eofF := false }
  else
    match editLoop flags input st 0 with
    | .done st1 _ =>
      let r := deliver st1 pLen
      .ok r.1 r.2
    | .readErr st1 x => .readErrR st1 x
    | .tooLong st1 x => .tooLongR st1 x
    | .canceled st1 x => .canceledR st1 x

/-- The state and cursor at the loop's return point. -/
def outState : RLOut → EdSt × Nat
  | .done st x => (st, x)
  | .readErr st x => (st, x)
  | .tooLong st x => (st, x)
  | .canceled st x => (st, x)

/-- The cooked-mode editing invariant of the claim. -/
def EdInv (st : EdSt) (x : Nat) : Prop :=
  x ≤ st.len ∧ st.len ≤ st.store.length

theorem insertByte_length (store : List Nat) (m x c : Nat) (hx : x ≤ m)
    (hm : m < store.length) : (insertByte store m x c).length = store.length := by
  rw [insertByte]
  simp only [List.length_append, List.length_take, List.length_cons, List.length_nil,
    List.length_drop]
  omega

theorem deleteByte_length (store : List Nat) (m x : Nat) (hx : 1 ≤ x) (hxm : x ≤ m)
    (hm : m ≤ store.length) : (deleteByte store m x).length = store.length := by
  rw [deleteByte]
  simp only [List.length_append, List.length_take, List.length_cons, List.length_nil,
    List.length_drop]
  omega

/-- The claim's invariant at the loop's return point; for the `ECANCELED`
return the cursor is loop-local and dead, so the invariant is stated for
the cursor value (`0`) the next `readLine` call starts with. -/
def rlInv : RLOut → Prop
  | .done st x => EdInv st x
  | .readErr st x => EdInv st x
  | .tooLong st x => EdInv st x
  | .canceled st _ => EdInv st 0

theorem editLoop_preserves (flags : Nat) : ∀ (input : List Nat) (st : EdSt) (x : Nat),
    EdInv st x → rlInv (editLoop flags input st x) ∧
      (outState (editLoop flags input st x)).1.store.length = st.store.length := by
  suffices H : ∀ (n : Nat) (input : List Nat), input.length ≤ n → ∀ (st : EdSt) (x : Nat),
      EdInv st x → rlInv (editLoop flags input st x) ∧
        (outState (editLoop flags input st x)).1.store.length = st.store.length from
    fun input st x h => H input.length input le_rfl st x h
  intro n
  induction n with
  | zero =>
    intro input hle st x hinv
    cases input with
    | nil =>
      rw [editLoop.eq_def]
      dsimp only
      by_cases hr : 0 ≤ st.rpos
      · rw [if_pos hr]; exact ⟨hinv, rfl⟩
      · rw [if_neg hr]
        by_cases hcap : st.len = st.store.length
        · rw [if_pos hcap]; exact ⟨hinv, rfl⟩
        · rw [if_neg hcap]; exact ⟨hinv, rfl⟩
    | cons c rest => simp at hle
  | succ n ih =>
    intro input hle st x hinv
    cases input with
    | nil =>
      rw [editLoop.eq_def]
      dsimp only
      by_cases hr : 0 ≤ st.rpos
      · rw [if_pos hr]; exact ⟨hinv, rfl⟩
      · rw [if_neg hr]
        by_cases hcap : st.len = st.store.length
        · rw [if_pos hcap]; exact ⟨hinv, rfl⟩
        · rw [if_neg hcap]; exact ⟨hinv, rfl⟩
    | cons c rest =>
      rw [editLoop.eq_def]
      dsimp only
      by_cases hr : 0 ≤ st.rpos
      · rw [if_pos hr]; exact ⟨hinv, rfl⟩
      rw [if_neg hr]
      by_cases hcap : st.len = st.store.length
      · rw [if_pos hcap]; exact ⟨hinv, rfl⟩
      rw [if_neg hcap]
      obtain ⟨hxl, hls⟩ := hinv
      have hlt : st.len < st.store.length := lt_of_le_of_ne hls hcap
      have hrest : rest.length ≤ n := by simp at hle; omega
      by_cases h1 : c = 13 ∧ flags &&& InCRLF = 0
      · rw [if_pos h1]; exact ih rest hrest st x ⟨hxl, hls⟩
      rw [if_neg h1]
      by_cases h2 : c = 13 ∨ c = 10
      · rw [if_pos h2]
        have hlenI := insertByte_length st.store st.len st.len 10 le_rfl hlt
        obtain ⟨ha, hb⟩ := ih rest hrest
          { st with store := insertByte st.store st.len st.len 10,
                    len := st.len + 1, rpos := 0 } (st.len + 1)
          ⟨le_rfl, by dsimp only; omega⟩
        exact ⟨ha, hb.trans hlenI⟩
      rw [if_neg h2]
      by_cases h3 : c = 127 ∨ c = 8
      · rw [if_pos h3]
        by_cases hx0 : x = 0
        · rw [if_pos hx0]; exact ih rest hrest st x ⟨hxl, hls⟩
        · rw [if_neg hx0]
          have hlenD := deleteByte_length st.store st.len x (by omega) hxl hls
          obtain ⟨ha, hb⟩ := ih rest hrest
            { st with store := deleteByte st.store st.len x, len := st.len - 1 } (x - 1)
            ⟨by dsimp only; omega, by dsimp only; omega⟩
          exact ⟨ha, hb.trans hlenD⟩
      rw [if_neg h3]
      by_cases h4 : c = 27
      · rw [if_pos h4]
        cases rest with
        | nil => dsimp only; exact ⟨⟨hxl, hls⟩, rfl⟩
        | cons c2 rest2 =>
          dsimp only
          have hrest2 : rest2.length ≤ n := by simp at hle; omega
          by_cases h5 : c2 ≠ 91
          · rw [if_pos h5]; exact ih rest2 hrest2 st x ⟨hxl, hls⟩
          rw [if_neg h5]
          cases rest2 with
          | nil => dsimp only; exact ⟨⟨hxl, hls⟩, rfl⟩
          | cons c3 rest3 =>
            dsimp only
            have hrest3 : rest3.length ≤ n := by simp at hle; omega
            by_cases hc67 : c3 = 67
            · rw [if_pos hc67]
              by_cases hxe : x = st.len
              · rw [if_pos hxe]; exact ih rest3 hrest3 st x ⟨hxl, hls⟩
              · rw [if_neg hxe]; exact ih rest3 hrest3 st (x + 1) ⟨by omega, hls⟩
            rw [if_neg hc67]
            by_cases hc68 : c3 = 68
            · rw [if_pos hc68]
              by_cases hx0 : x = 0
              · rw [if_pos hx0]; exact ih rest3 hrest3 st x ⟨hxl, hls⟩
              · rw [if_neg hx0]; exact ih rest3 hrest3 st (x - 1) ⟨by omega, hls⟩
            rw [if_neg hc68]
            by_cases hc72 : c3 = 72
            · rw [if_pos hc72]
              by_cases hx0 : x = 0
              · rw [if_pos hx0]; exact ih rest3 hrest3 st x ⟨hxl, hls⟩
              · rw [if_neg hx0]; exact ih rest3 hrest3 st 0 ⟨Nat.zero_le _, hls⟩
            rw [if_neg hc72]
            by_cases hc70 : c3 = 70
            · rw [if_pos hc70]
              by_cases hxe : st.len - x = 0
              · rw [if_pos hxe]; exact ih rest3 hrest3 st x ⟨hxl, hls⟩
              · rw [if_neg hxe]; exact ih rest3 hrest3 st st.len ⟨le_rfl, hls⟩
            rw [if_neg hc70]
            by_cases hc65 : c3 = 65
            · rw [if_pos hc65]
              by_cases hl0 : st.len ≠ 0
              · rw [if_pos hl0]; exact ih rest3 hrest3 st x ⟨hxl, hls⟩
              rw [if_neg hl0]
              cases hfi : st.store.findIdx? (fun b => b < 32) with
              | none => exact ih rest3 hrest3 st x ⟨hxl, hls⟩
              | some i =>
                dsimp only
                by_cases hi0 : i = 0
                · rw [if_pos hi0]; exact ih rest3 hrest3 st x ⟨hxl, hls⟩
                · rw [if_neg hi0]
                  obtain ⟨pre, b, post, hdec, hlen, _, _⟩ :=
                    listFindIdx?_decomp (fun b => b < 32) st.store i hfi
                  have hilt : i < st.store.length := by
                    rw [hdec, List.length_append, List.length_cons]
                    omega
                  exact ih rest3 hrest3 { st with len := i } i
                    ⟨le_rfl, by dsimp only; omega⟩
            rw [if_neg hc65]
            by_cases hc66 : c3 = 66
            · rw [if_pos hc66]
              by_cases hl0 : st.len = 0
              · rw [if_pos hl0]; exact ih rest3 hrest3 st x ⟨hxl, hls⟩
              · rw [if_neg hl0]
                have hlenB : (if st.len ≠ st.store.length then st.store.set st.len 0
                    else st.store).length = st.store.length := by
                  split <;> simp
                obtain ⟨ha, hb⟩ := ih rest3 hrest3
                  { st with store := if st.len ≠ st.store.length
                      then st.store.set st.len 0 else st.store, len := 0 } 0
                  ⟨le_rfl, by dsimp only; omega⟩
                exact ⟨ha, hb.trans hlenB⟩
            · rw [if_neg hc66]
              exact ih rest3 hrest3 st x ⟨hxl, hls⟩
      rw [if_neg h4]
      by_cases h6 : c = 3
      · rw [if_pos h6]
        exact ⟨⟨Nat.zero_le _, by dsimp only; omega⟩, rfl⟩
      rw [if_neg h6]
      by_cases h7 : c = 4
      · rw [if_pos h7]
        exact ih rest hrest { st with rpos := 0, eofF := true } st.len ⟨le_rfl, hls⟩
      rw [if_neg h7]
      by_cases h8 : c < 32 ∨ 254 ≤ c
      · rw [if_pos h8]; exact ih rest hrest st x ⟨hxl, hls⟩
      · rw [if_neg h8]
        have hlenI := insertByte_length st.store st.len x c hxl hlt
        obtain ⟨ha, hb⟩ := ih rest hrest
          { st with store := insertByte st.store st.len x c, len := st.len + 1 } (x + 1)
          ⟨by dsimp only; omega, by dsimp only; omega⟩
        exact ⟨ha, hb.trans hlenI⟩

/-- C2: in cooked mode, after the `readLine` state machine has consumed any
prefix of the input byte stream (the loop returns at a reader error, a
finished line, a too-long line or a ^C cancel), the editor state satisfies
`0 ≤ x ≤ len(line) ≤ cap(line)` (with the loop-local cursor reset to 0 by
a return), and the buffer capacity never changes; and whenever a finished
line is fully delivered to the caller (the caller's buffer covers the rest
of the line), afterwards `rpos = -1` and `len(line) = 0`. -/
theorem termfs_readline_invariant (flags pLen : Nat) (input : List Nat)
    (st : EdSt) (x : Nat) (hinv : EdInv st x) :
    (rlInv (editLoop flags input st x) ∧
      (outState (editLoop flags input st x)).1.store.length = st.store.length) ∧
    (∀ st1 : EdSt, 0 ≤ st1.rpos → st1.rpos.toNat ≤ st1.len →
      st1.len ≤ st1.rpos.toNat + pLen →
      (deliver st1 pLen).2.rpos = -1 ∧ (deliver st1 pLen).2.len = 0) := by
  refine ⟨editLoop_preserves flags input st x hinv, ?_⟩
  intro st1 h0 h1 h2
  have hcond : st1.rpos + ((min pLen (st1.len - st1.rpos.toNat) : Nat) : Int)
      = (st1.len : Int) := by omega
  rw [deliver]
  rw [if_pos hcond]
  exact ⟨rfl, rfl⟩

/-- Witness for C2: type `"ab\n"` into an empty 8-byte line buffer, then
deliver the finished 3-byte line into a 16-byte caller buffer. -/
theorem termfs_readline_invariant_witness :
    EdInv { store := [0, 0, 0, 0, 0, 0, 0, 0], len := 0, rpos := -1, eofF := false } 0 ∧
    (rlInv (editLoop 0 [97, 98, 10]
        { store := [0, 0, 0, 0, 0, 0, 0, 0], len := 0, rpos := -1, eofF := false } 0) ∧
      (outState (editLoop 0 [97, 98, 10]
        { store := [0, 0, 0, 0, 0, 0, 0, 0], len := 0, rpos := -1, eofF := false } 0)).1.store.length = 8) ∧
    ((deliver { store := [97, 98, 10, 0, 0, 0, 0, 0], len := 3, rpos := 0, eofF := false }
        16).2.rpos = -1 ∧
      (deliver { store := [97, 98, 10, 0, 0, 0, 0, 0], len := 3, rpos := 0, eofF := false }
        16).2.len = 0) :=
  ⟨⟨by decide, by decide⟩,
    (termfs_readline_invariant 0 16 [97, 98, 10]
      { store := [0, 0, 0, 0, 0, 0, 0, 0], len := 0, rpos := -1, eofF := false } 0
      ⟨by decide, by decide⟩).1,
    ((termfs_readline_invariant 0 16 [97, 98, 10]
      { store := [0, 0, 0, 0, 0, 0, 0, 0], len := 0, rpos := -1, eofF := false } 0
      ⟨by decide, by decide⟩).2
      { store := [97, 98, 10, 0, 0, 0, 0, 0], len := 3, rpos := 0, eofF := false }
      (by decide) (by decide) (by decide))⟩
